import Mathlib

/-!
# HEDL core engine: shallow embedding and verification

HEDL (Hierarchical Entity Data Language) is a text serialization language
with explicit schemas, named aliases and cross-references.  The repository
ships the C FFI surface (`crates/hedl-ffi/hedl.h`,
`crates/hedl-ffi/include/hedl.h`) and C example programs; the core engine
(parser, resolver, canonicalizer, linter) sits behind that surface.  The
engine itself is not part of the C sources, so the definitions below model
it from the specification ("Modelled from the spec" doc comments), while
the FFI layer (error codes, handle behaviour, thread error slot, callback
contract) is embedded from the headers.

The modelled source fragment covers the directive prologue (`%VERSION`,
`%SCHEMA`, `%ALIAS`), the `---` separator, `key: value` body lines and
scalar values (null, booleans, 64-bit integers, strings in bareword or
double-quoted form, `@` references with dotted paths).  Strings are
`List Char` throughout so that every function is structurally recursive
and kernel-computable.
-/

namespace Hedl

/-- Source text and all engine strings are lists of characters. -/
abbrev Str := List Char

/-- Build a `Str` from a Lean string literal. -/
def strLit (s : String) : Str := s.data

/-! ## Decimal numerals -/

/-- Character for a decimal digit value. -/
def digitChar (n : Nat) : Char := Char.ofNat (48 + n)

/-- Specification-level digit expansion of a natural number
(most significant digit first). -/
def natDigs (n : Nat) : Str :=
  if h : n < 10 then [digitChar n]
  else natDigs (n / 10) ++ [digitChar (n % 10)]
  decreasing_by exact Nat.div_lt_self (by omega) (by omega)

/-- Fuel-driven digit expansion; structurally recursive so that the kernel
can evaluate it. -/
def natToCharsGo : Nat → Nat → Str → Str
  | 0, _, acc => acc
  | f + 1, n, acc =>
    let acc' := digitChar (n % 10) :: acc
    if n / 10 = 0 then acc' else natToCharsGo f (n / 10) acc'

/-- Decimal numeral of a natural number. -/
def natToChars (n : Nat) : Str := natToCharsGo (n + 1) n []

theorem natToCharsGo_eq_natDigs (f : Nat) :
    ∀ n acc, n < f → natToCharsGo f n acc = natDigs n ++ acc := by
  induction f with
  | zero => intro n acc h; omega
  | succ f ih =>
    intro n acc h
    by_cases h10 : n < 10
    · have hz : n / 10 = 0 := Nat.div_eq_of_lt h10
      have hm : n % 10 = n := Nat.mod_eq_of_lt h10
      simp [natToCharsGo, hz, hm, natDigs, h10]
    · have hdm := Nat.div_add_mod n 10
      have hmod := Nat.mod_lt n (show 0 < 10 by omega)
      have hz : ¬ (n / 10 = 0) := by intro hc; rw [hc] at hdm; omega
      have hlt : n / 10 < f := by
        have h1 : n / 10 < n := Nat.div_lt_self (by omega) (by omega)
        omega
      have hrec := ih (n / 10) (digitChar (n % 10) :: acc) hlt
      rw [natDigs]
      simp only [natToCharsGo, hz, if_false, h10, dif_neg]
      rw [hrec]
      simp [List.append_assoc]

theorem natToChars_eq_natDigs (n : Nat) : natToChars n = natDigs n := by
  have := natToCharsGo_eq_natDigs (n + 1) n [] (by omega)
  simpa [natToChars] using this

/-- Digit characters have the expected code points. -/
theorem digitChar_toNat {d : Nat} (h : d < 10) : (digitChar d).toNat = 48 + d := by
  interval_cases d <;> decide

theorem digitChar_isDigit {d : Nat} (h : d < 10) : (digitChar d).isDigit = true := by
  interval_cases d <;> decide

/-- Numeric value of a digit string (no validity check). -/
def digitsVal (s : Str) : Nat := s.foldl (fun a c => a * 10 + (c.toNat - 48)) 0

theorem digitsVal_append_digit (s : Str) (c : Char) :
    digitsVal (s ++ [c]) = digitsVal s * 10 + (c.toNat - 48) := by
  simp [digitsVal, List.foldl_append]

theorem digitsVal_natDigs (n : Nat) : digitsVal (natDigs n) = n := by
  induction n using Nat.strong_induction_on with
  | _ n ih =>
    by_cases h : n < 10
    · rw [natDigs]
      simp [h, digitsVal, digitChar_toNat h]
    · rw [natDigs]
      simp only [h, dif_neg, not_false_iff]
      rw [digitsVal_append_digit]
      have hlt : n / 10 < n := Nat.div_lt_self (by omega) (by omega)
      rw [ih (n / 10) hlt]
      have := digitChar_toNat (Nat.mod_lt n (by omega : 0 < 10))
      omega

theorem natDigs_all_digit (n : Nat) : (natDigs n).all Char.isDigit = true := by
  induction n using Nat.strong_induction_on with
  | _ n ih =>
    by_cases h : n < 10
    · rw [natDigs]; simp [h, digitChar_isDigit h]
    · rw [natDigs]
      simp only [h, dif_neg, not_false_iff, List.all_append, Bool.and_eq_true]
      refine ⟨ih (n / 10) (Nat.div_lt_self (by omega) (by omega)), ?_⟩
      simp [digitChar_isDigit (Nat.mod_lt n (by omega : 0 < 10))]

theorem natDigs_ne_nil (n : Nat) : natDigs n ≠ [] := by
  rw [natDigs]
  by_cases h : n < 10 <;> simp [h]

/-- Parse a non-empty all-digit string into a natural number. -/
def parseNat (s : Str) : Option Nat :=
  if s ≠ [] ∧ s.all Char.isDigit then some (digitsVal s) else none

theorem parseNat_natToChars (n : Nat) : parseNat (natToChars n) = some n := by
  rw [natToChars_eq_natDigs]
  simp [parseNat, natDigs_ne_nil n, natDigs_all_digit n, digitsVal_natDigs n]

/-! ## Signed 64-bit integer bounds and numerals -/

/-- Largest signed 64-bit value. -/
def intMax : Int := 9223372036854775807

/-- Smallest signed 64-bit value. -/
def intMin : Int := -9223372036854775808

/-- Decimal numeral of an integer, shortest form with a leading `-` for
negative values. -/
def intToChars (n : Int) : Str :=
  if n < 0 then '-' :: natToChars (-n).toNat else natToChars n.toNat

/-! ## Separator splitting and joining -/

/-- Split a string at every occurrence of the separator character; always
returns at least one (possibly empty) piece. -/
def splitSep (sep : Char) : Str → List Str
  | [] => [[]]
  | c :: cs =>
    if c = sep then [] :: splitSep sep cs
    else
      match splitSep sep cs with
      | [] => [[c]]
      | p :: ps => (c :: p) :: ps

/-- Join pieces with a separator character between them. -/
def joinSep (sep : Char) : List Str → Str
  | [] => []
  | [p] => p
  | p :: ps => p ++ sep :: joinSep sep ps

theorem splitSep_ne_nil (sep : Char) (s : Str) : splitSep sep s ≠ [] := by
  induction s with
  | nil => simp [splitSep]
  | cons c cs ih =>
    simp only [splitSep]
    by_cases h : c = sep
    · simp [h]
    · simp only [h, if_false]
      cases hs : splitSep sep cs <;> simp

theorem splitSep_no_sep {sep : Char} {s : Str} (h : sep ∉ s) :
    splitSep sep s = [s] := by
  induction s with
  | nil => simp [splitSep]
  | cons c cs ih =>
    have hc : c ≠ sep := fun he => h (he ▸ List.mem_cons_self c cs)
    have hcs : sep ∉ cs := fun hm => h (List.mem_cons_of_mem c hm)
    simp [splitSep, hc, ih hcs]

theorem splitSep_append_sep {sep : Char} {p : Str} (h : sep ∉ p) (rest : Str) :
    splitSep sep (p ++ sep :: rest) = p :: splitSep sep rest := by
  induction p with
  | nil => simp [splitSep]
  | cons c cs ih =>
    have hc : c ≠ sep := fun he => h (he ▸ List.mem_cons_self c cs)
    have hcs : sep ∉ cs := fun hm => h (List.mem_cons_of_mem c hm)
    have hrec := ih hcs
    simp only [List.cons_append, splitSep, hc, if_false]
    rw [show (cs.append (sep :: rest)) = cs ++ sep :: rest from rfl, hrec]

theorem splitSep_joinSep {sep : Char} :
    ∀ {ps : List Str}, ps ≠ [] → (∀ p ∈ ps, sep ∉ p) →
      splitSep sep (joinSep sep ps) = ps := by
  intro ps
  induction ps with
  | nil => intro h; exact absurd rfl h
  | cons p ps ih =>
    intro _ hall
    cases ps with
    | nil => simpa [joinSep] using splitSep_no_sep (hall p (by simp))
    | cons q qs =>
      have h1 : sep ∉ p := hall p (by simp)
      have h2 : ∀ r ∈ q :: qs, sep ∉ r := fun r hr => hall r (by simp [hr])
      simp only [joinSep, splitSep_append_sep h1]
      rw [ih (by simp) h2]

/-! ## Identifier characters -/

/-- Modelled from the spec (§4.2 Lexer): barewords match
`[A-Za-z_][A-Za-z0-9_-]*`. First character of an identifier. -/
def isIdentStart (c : Char) : Bool :=
  (65 ≤ c.toNat && c.toNat ≤ 90) || (97 ≤ c.toNat && c.toNat ≤ 122) || c = '_'

/-- Continuation character of an identifier. -/
def isIdentChar (c : Char) : Bool :=
  isIdentStart c || c.isDigit || c = '-'

/-- A valid bareword identifier. -/
def validIdent (s : Str) : Bool :=
  match s with
  | [] => false
  | c :: cs => isIdentStart c && cs.all isIdentChar

theorem validIdent_all_identChar {s : Str} (h : validIdent s = true) :
    ∀ c ∈ s, isIdentChar c = true := by
  match s with
  | [] => simp [validIdent] at h
  | c :: cs =>
    simp only [validIdent, Bool.and_eq_true] at h
    intro x hx
    rcases List.mem_cons.mp hx with rfl | hx
    · simp [isIdentChar, h.1]
    · exact (List.all_eq_true.mp h.2) x hx

theorem identChar_ne_special {c : Char} (h : isIdentChar c = true) :
    c ≠ '\n' ∧ c ≠ '.' ∧ c ≠ ':' ∧ c ≠ ' ' ∧ c ≠ ',' ∧ c ≠ '"' ∧
    c ≠ '\\' ∧ c ≠ '{' ∧ c ≠ '}' ∧ c ≠ '@' ∧ c ≠ '%' ∧ c ≠ '#' := by
  simp only [isIdentChar, isIdentStart, Bool.or_eq_true, Bool.and_eq_true,
    decide_eq_true_eq, Char.isDigit] at h
  refine ⟨?_, ?_, ?_, ?_, ?_, ?_, ?_, ?_, ?_, ?_, ?_, ?_⟩ <;>
    (rintro rfl; revert h; decide)

/-- Longest identifier-character prefix and the remainder. -/
def spanIdent : Str → Str × Str
  | [] => ([], [])
  | c :: cs =>
    if isIdentChar c then
      let (a, b) := spanIdent cs
      (c :: a, b)
    else ([], c :: cs)

theorem spanIdent_append {l : Str} (hl : ∀ c ∈ l, isIdentChar c = true) :
    ∀ {r : Str}, (∀ h : r ≠ [], ¬ isIdentChar (r.head h)) →
      spanIdent (l ++ r) = (l, r) := by
  induction l with
  | nil =>
    intro r hr
    cases r with
    | nil => simp [spanIdent]
    | cons c cs =>
      have := hr (by simp)
      simp only [List.head_cons] at this
      simp [spanIdent, this]
  | cons c cs ih =>
    intro r hr
    have hc : isIdentChar c = true := hl c (by simp)
    have hcs : ∀ x ∈ cs, isIdentChar x = true := fun x hx => hl x (by simp [hx])
    simp only [List.cons_append, spanIdent, hc, if_true]
    rw [show (cs.append r) = cs ++ r from rfl, ih hcs hr]

/-- Parse a leading identifier; returns the identifier and the rest. -/
def parseIdent (s : Str) : Option (Str × Str) :=
  match s with
  | [] => none
  | c :: _ =>
    if isIdentStart c then
      some (spanIdent s)
    else none

theorem parseIdent_append {name : Str} (hn : validIdent name = true) {r : Str}
    (hr : ∀ h : r ≠ [], ¬ isIdentChar (r.head h)) :
    parseIdent (name ++ r) = some (name, r) := by
  match name with
  | [] => simp [validIdent] at hn
  | c :: cs =>
    simp only [validIdent, Bool.and_eq_true] at hn
    have hstart : isIdentStart c = true := hn.1
    have hall : ∀ x ∈ c :: cs, isIdentChar x = true :=
      validIdent_all_identChar (by simp [validIdent, hn.1, hn.2])
    simp only [List.cons_append, parseIdent, hstart, if_true]
    have := spanIdent_append (l := c :: cs) hall hr
    simpa using this

theorem spanIdent_fst_all (s : Str) : ∀ x ∈ (spanIdent s).1, isIdentChar x = true := by
  induction s with
  | nil => simp [spanIdent]
  | cons c cs ih =>
    simp only [spanIdent]
    by_cases hc : isIdentChar c
    · simp only [hc, if_true]
      intro x hx
      rcases List.mem_cons.mp hx with rfl | hx
      · exact hc
      · exact ih x hx
    · simp [hc]

theorem parseIdent_valid {s name rest : Str}
    (h : parseIdent s = some (name, rest)) : validIdent name = true := by
  match s with
  | [] => simp [parseIdent] at h
  | c :: cs =>
    simp only [parseIdent] at h
    by_cases hc : isIdentStart c
    · simp only [hc, if_true, Option.some.injEq] at h
      have hall := spanIdent_fst_all (c :: cs)
      rw [h] at hall
      simp only at hall
      have hspan : spanIdent (c :: cs) = (c :: (spanIdent cs).1, (spanIdent cs).2) := by
        simp [spanIdent, hc, isIdentChar]
      rw [hspan] at h
      have hname : name = c :: (spanIdent cs).1 := by
        have := congrArg Prod.fst h
        simpa using this.symm
      subst hname
      simp only [validIdent, Bool.and_eq_true]
      refine ⟨hc, List.all_eq_true.mpr ?_⟩
      intro x hx
      exact spanIdent_fst_all cs x hx
    · simp [hc] at h

/-! ## String escaping (canonicalizer §4.6) and quoted-string lexing (§4.2) -/

/-- Hexadecimal digit character (uppercase) for a value below 16. -/
def hexChar (n : Nat) : Char :=
  if n < 10 then Char.ofNat (48 + n) else Char.ofNat (55 + n)

/-- Value of a hexadecimal digit character, either case. -/
def hexVal (c : Char) : Option Nat :=
  if 48 ≤ c.toNat ∧ c.toNat ≤ 57 then some (c.toNat - 48)
  else if 65 ≤ c.toNat ∧ c.toNat ≤ 70 then some (c.toNat - 55)
  else if 97 ≤ c.toNat ∧ c.toNat ≤ 102 then some (c.toNat - 87)
  else none

theorem hexVal_hexChar {n : Nat} (h : n < 16) : hexVal (hexChar n) = some n := by
  interval_cases n <;> decide

/-- Modelled from the spec (§4.6): inside a double-quoted canonical string,
escape exactly `\ " \n \r \t` and the remaining control characters below
`0x20` (as `\u00XX`); everything else is emitted as-is. -/
def escChar (c : Char) : Str :=
  if c = '\\' then ['\\', '\\']
  else if c = '"' then ['\\', '"']
  else if c = '\n' then ['\\', 'n']
  else if c = '\r' then ['\\', 'r']
  else if c = '\t' then ['\\', 't']
  else if c.toNat < 32 then
    ['\\', 'u', '0', '0', hexChar (c.toNat / 16), hexChar (c.toNat % 16)]
  else [c]

/-- Escape an entire string body. -/
def escapeChars : Str → Str
  | [] => []
  | c :: cs => escChar c ++ escapeChars cs

/-- Modelled from the spec (§4.2 Lexer): consume a double-quoted string
body up to the closing quote, decoding the escape sequences
`\n \t \r \\ \" \uXXXX`; the closing quote must end the line.  Fuel-driven
so the kernel can evaluate it. -/
def parseQuotedF : Nat → Str → Str → Option Str
  | 0, _, _ => none
  | _ + 1, [], _ => none
  | f + 1, c :: rest, acc =>
    if c = '"' then (if rest = [] then some acc.reverse else none)
    else if c = '\\' then
      match rest with
      | [] => none
      | e :: rest2 =>
        if e = 'n' then parseQuotedF f rest2 ('\n' :: acc)
        else if e = 't' then parseQuotedF f rest2 ('\t' :: acc)
        else if e = 'r' then parseQuotedF f rest2 ('\r' :: acc)
        else if e = '\\' then parseQuotedF f rest2 ('\\' :: acc)
        else if e = '"' then parseQuotedF f rest2 ('"' :: acc)
        else if e = 'u' then
          match rest2 with
          | h1 :: h2 :: h3 :: h4 :: rest3 =>
            match hexVal h1, hexVal h2, hexVal h3, hexVal h4 with
            | some a, some b, some c2, some d2 =>
              parseQuotedF f rest3 (Char.ofNat (((a * 16 + b) * 16 + c2) * 16 + d2) :: acc)
            | _, _, _, _ => none
          | _ => none
        else none
    else parseQuotedF f rest (c :: acc)

/-- Parse a quoted-string body (everything after the opening quote, to the
end of the line). -/
def parseQuoted (s : Str) : Option Str := parseQuotedF (s.length + 1) s []

theorem char_ofNat_toNat_of_lt32 {c : Char} (_h : c.toNat < 32) :
    Char.ofNat c.toNat = c := Char.ofNat_toNat c

theorem escChar_length_pos (c : Char) : 1 ≤ (escChar c).length := by
  simp only [escChar]
  split
  · simp
  split
  · simp
  split
  · simp
  split
  · simp
  split
  · simp
  split <;> simp

/-- One escape unit is consumed by one `parseQuotedF` step. -/
theorem parseQuotedF_escChar (c : Char) (rest acc : Str) (f : Nat) :
    parseQuotedF (f + 1) (escChar c ++ rest) acc = parseQuotedF f rest (c :: acc) := by
  by_cases hbs : c = '\\'
  · subst hbs; simp [escChar, parseQuotedF]
  by_cases hq : c = '"'
  · subst hq; simp [escChar, parseQuotedF]
  by_cases hn : c = '\n'
  · subst hn; simp [escChar, parseQuotedF]
  by_cases hr : c = '\r'
  · subst hr; simp [escChar, parseQuotedF]
  by_cases ht : c = '\t'
  · subst ht; simp [escChar, parseQuotedF]
  by_cases h32 : c.toNat < 32
  · simp only [escChar, hbs, hq, hn, hr, ht, if_false, h32, if_pos,
      List.cons_append, List.nil_append]
    have hdiv : c.toNat / 16 < 16 := by omega
    have hmod : c.toNat % 16 < 16 := Nat.mod_lt _ (by omega)
    have h0 : hexVal '0' = some 0 := by decide
    simp only [parseQuotedF]
    simp only [show ('\\' : Char) = '"' ↔ False by simp, if_false, reduceIte,
      h0, hexVal_hexChar hdiv, hexVal_hexChar hmod]
    simp only [show ('u' : Char) = 'n' ↔ False by simp,
      show ('u' : Char) = 't' ↔ False by simp,
      show ('u' : Char) = 'r' ↔ False by simp,
      show ('u' : Char) = '\\' ↔ False by simp,
      show ('u' : Char) = '"' ↔ False by simp, if_false, reduceIte]
    rw [show ((0 * 16 + 0) * 16 + c.toNat / 16) * 16 + c.toNat % 16
        = c.toNat by omega, char_ofNat_toNat_of_lt32 h32]
  · simp only [escChar, hbs, hq, hn, hr, ht, if_false, h32,
      List.singleton_append]
    simp [parseQuotedF, hq, hbs]

theorem parseQuotedF_escape (s : Str) :
    ∀ (f : Nat) (acc : Str), (escapeChars s).length < f →
      parseQuotedF f (escapeChars s ++ ['"']) acc = some (acc.reverse ++ s) := by
  induction s with
  | nil =>
    intro f acc hf
    obtain ⟨f, rfl⟩ : ∃ f', f = f' + 1 := ⟨f - 1, by omega⟩
    simp [escapeChars, parseQuotedF]
  | cons c cs ih =>
    intro f acc hf
    obtain ⟨f, rfl⟩ : ∃ f', f = f' + 1 := ⟨f - 1, by omega⟩
    have hflt : (escapeChars cs).length < f := by
      have h1 := escChar_length_pos c
      simp only [escapeChars, List.length_append] at hf
      omega
    rw [show escapeChars (c :: cs) ++ ['"'] = escChar c ++ (escapeChars cs ++ ['"'])
        by simp [escapeChars, List.append_assoc]]
    rw [parseQuotedF_escChar, ih f (c :: acc) hflt]
    simp

theorem parseQuoted_escape (s : Str) :
    parseQuoted (escapeChars s ++ ['"']) = some s := by
  have := parseQuotedF_escape s ((escapeChars s ++ ['"']).length + 1) []
    (by simp only [List.length_append]; omega)
  simpa [parseQuoted] using this

theorem hexChar_ne_nl {n : Nat} (h : n < 16) : hexChar n ≠ '\n' := by
  interval_cases n <;> decide

/-- Escaped output never contains a newline (rendered lines stay lines). -/
theorem escChar_no_nl (c : Char) : '\n' ∉ escChar c := by
  by_cases hbs : c = '\\'
  · simp [escChar, hbs]
  by_cases hq : c = '"'
  · simp [escChar, hbs, hq]
  by_cases hn : c = '\n'
  · simp [escChar, hbs, hq, hn]
  by_cases hr : c = '\r'
  · simp [escChar, hbs, hq, hn, hr]
  by_cases ht : c = '\t'
  · simp [escChar, hbs, hq, hn, hr, ht]
  by_cases h32 : c.toNat < 32
  · simp only [escChar, hbs, hq, hn, hr, ht, if_false, h32, if_pos]
    have hdiv : c.toNat / 16 < 16 := by omega
    have hmod : c.toNat % 16 < 16 := Nat.mod_lt _ (by omega)
    intro hm
    simp only [List.mem_cons, List.not_mem_nil, or_false] at hm
    rcases hm with h | h | h | h | h | h
    · exact absurd h (by decide)
    · exact absurd h (by decide)
    · exact absurd h (by decide)
    · exact absurd h (by decide)
    · exact hexChar_ne_nl hdiv h.symm
    · exact hexChar_ne_nl hmod h.symm
  · simp only [escChar, hbs, hq, hn, hr, ht, if_false, h32]
    intro hm
    simp only [List.mem_singleton] at hm
    exact hn hm.symm

theorem escapeChars_no_nl (s : Str) : '\n' ∉ escapeChars s := by
  induction s with
  | nil => simp [escapeChars]
  | cons c cs ih =>
    simp only [escapeChars, List.mem_append]
    rintro (hm | hm)
    · exact escChar_no_nl c hm
    · exact ih hm

/-! ## Values (document model §3) -/

/-- Modelled from the spec (§3 Data Model): the scalar/reference fragment
of the `Value` sum type.  List, map and record collections are outside the
modelled fragment (the spec itself leaves list/map alias payloads open). -/
inductive Value where
  | null
  | bool (b : Bool)
  | int (n : Int)
  | str (s : Str)
  | ref (path : List Str)
  deriving DecidableEq

/-- Keywords that cannot be emitted as barewords. -/
def isKeyword (s : Str) : Bool :=
  decide (s = strLit "null") || decide (s = strLit "true") || decide (s = strLit "false")

/-- Modelled from the spec (§4.6 Canonicalizer): scalar rendering.
Integers in shortest decimal with explicit `-`; booleans `true`/`false`;
null `null`; references `@` followed by the dotted path; strings as
barewords when they fit the bareword shape, double-quoted with minimal
escapes otherwise (scenario S2 shows bareword strings staying unquoted). -/
def renderValue : Value → Str
  | .null => strLit "null"
  | .bool true => strLit "true"
  | .bool false => strLit "false"
  | .int n => intToChars n
  | .str s => if validIdent s && !(isKeyword s) then s else '"' :: (escapeChars s ++ ['"'])
  | .ref path => '@' :: joinSep '.' path

/-- Modelled from the spec (§4.2 Lexer, §4.3 Parser): parse one scalar or
reference value occupying the rest of a line. -/
def parseValueAll (s : Str) : Option Value :=
  match s with
  | [] => none
  | c :: rest =>
    if c = '@' then
      let parts := splitSep '.' rest
      if parts.all validIdent then some (.ref parts) else none
    else if c = '"' then (parseQuoted rest).map .str
    else if c = '-' then
      match parseNat rest with
      | some m => if m ≤ 9223372036854775808 then some (.int (-(m : Int))) else none
      | none => none
    else if c.isDigit then
      match parseNat (c :: rest) with
      | some m => if m ≤ 9223372036854775807 then some (.int (m : Int)) else none
      | none => none
    else if c :: rest = strLit "null" then some .null
    else if c :: rest = strLit "true" then some (.bool true)
    else if c :: rest = strLit "false" then some (.bool false)
    else if validIdent (c :: rest) then some (.str (c :: rest))
    else none

/-- Well-formedness invariant for values produced by the parser: integers
fit in a signed 64-bit word and reference paths are non-empty identifier
segments. -/
def ValueWF : Value → Prop
  | .int n => intMin ≤ n ∧ n ≤ intMax
  | .ref path => path ≠ [] ∧ path.all validIdent = true
  | _ => True

theorem isDigit_bounds {c : Char} (h : c.isDigit = true) :
    48 ≤ c.toNat ∧ c.toNat ≤ 57 := by
  simp [Char.isDigit, Char.le_def, decide_eq_true_eq] at h
  exact ⟨h.1, h.2⟩

theorem isIdentStart_not_digit {c : Char} (h : isIdentStart c = true) :
    c.isDigit = false ∧ c ≠ '@' ∧ c ≠ '"' ∧ c ≠ '-' := by
  simp only [isIdentStart, Bool.or_eq_true, Bool.and_eq_true,
    decide_eq_true_eq] at h
  have hn : (65 ≤ c.toNat ∧ c.toNat ≤ 90) ∨ (97 ≤ c.toNat ∧ c.toNat ≤ 122) ∨
      c.toNat = 95 := by
    rcases h with (h | h) | h
    · exact Or.inl h
    · exact Or.inr (Or.inl h)
    · subst h; exact Or.inr (Or.inr rfl)
  constructor
  · cases hde : c.isDigit
    · rfl
    · exfalso
      have := isDigit_bounds hde
      omega
  refine ⟨?_, ?_, ?_⟩ <;> (rintro rfl; revert hn; decide)

theorem digit_head_not_special {c : Char} (h : c.isDigit = true) :
    c ≠ '@' ∧ c ≠ '"' ∧ c ≠ '-' := by
  have := isDigit_bounds h
  refine ⟨?_, ?_, ?_⟩ <;> (rintro rfl; revert this; decide)

theorem natToChars_all_digit (n : Nat) :
    ∀ x ∈ natToChars n, x.isDigit = true := by
  rw [natToChars_eq_natDigs]
  exact List.all_eq_true.mp (natDigs_all_digit n)

theorem natToChars_head_digit (n : Nat) :
    ∃ d ds, natToChars n = d :: ds ∧ d.isDigit = true := by
  rw [natToChars_eq_natDigs]
  have hall := natDigs_all_digit n
  have hne := natDigs_ne_nil n
  match hd : natDigs n with
  | [] => exact absurd hd hne
  | d :: ds =>
    rw [hd] at hall
    simp only [List.all_cons, Bool.and_eq_true] at hall
    exact ⟨d, ds, rfl, hall.1⟩

/-- Integer rendering parses back to the same integer. -/
theorem parseValueAll_int {n : Int} (h1 : intMin ≤ n) (h2 : n ≤ intMax) :
    parseValueAll (renderValue (.int n)) = some (.int n) := by
  by_cases hneg : n < 0
  · have hrv : renderValue (.int n) = '-' :: natToChars (-n).toNat := by
      simp [renderValue, intToChars, hneg]
    have hm : (-n).toNat ≤ 9223372036854775808 := by
      simp only [intMin] at h1; omega
    rw [hrv]
    simp only [parseValueAll, reduceIte, parseNat_natToChars, hm, if_pos]
    have : ((-n).toNat : Int) = -n := Int.toNat_of_nonneg (by omega)
    rw [this]
    simp
  · obtain ⟨d, ds, hds, hd⟩ := natToChars_head_digit n.toNat
    have hrv : renderValue (.int n) = natToChars n.toNat := by
      simp [renderValue, intToChars, hneg]
    obtain ⟨h3, h4, h5⟩ := digit_head_not_special hd
    have hm : n.toNat ≤ 9223372036854775807 := by
      simp only [intMax] at h2; omega
    rw [hrv, hds]
    simp only [parseValueAll]
    rw [if_neg h3, if_neg h4, if_neg h5, if_pos hd, ← hds]
    simp only [parseNat_natToChars, hm, if_pos]
    have : (n.toNat : Int) = n := Int.toNat_of_nonneg (by omega)
    rw [this]

/-- Reference rendering parses back to the same path. -/
theorem parseValueAll_ref {path : List Str} (hne : path ≠ [])
    (hval : path.all validIdent = true) :
    parseValueAll (renderValue (.ref path)) = some (.ref path) := by
  have hrv : renderValue (.ref path) = '@' :: joinSep '.' path := rfl
  rw [hrv]
  simp only [parseValueAll]
  rw [if_pos trivial]
  have hnodot : ∀ p ∈ path, '.' ∉ p := by
    intro p hp hm
    have hv := List.all_eq_true.mp hval p hp
    exact (identChar_ne_special (validIdent_all_identChar hv '.' hm)).2.1 rfl
  rw [splitSep_joinSep hne hnodot, if_pos hval]

/-- String rendering parses back to the same string. -/
theorem parseValueAll_str (s : Str) :
    parseValueAll (renderValue (.str s)) = some (.str s) := by
  by_cases hbw : validIdent s && !(isKeyword s)
  · have hrv : renderValue (.str s) = s := by simp [renderValue, hbw]
    rw [hrv]
    simp only [Bool.and_eq_true, Bool.not_eq_true'] at hbw
    obtain ⟨hvi, hkw⟩ := hbw
    match s with
    | [] => simp [validIdent] at hvi
    | c :: cs =>
      have hstart : isIdentStart c = true := by
        simp only [validIdent, Bool.and_eq_true] at hvi
        exact hvi.1
      obtain ⟨hdig, hat, hq, hdash⟩ := isIdentStart_not_digit hstart
      simp only [isKeyword, Bool.or_eq_false_iff, decide_eq_false_iff_not] at hkw
      simp only [parseValueAll]
      rw [if_neg hat, if_neg hq, if_neg hdash, if_neg (by rw [hdig]; exact Bool.false_ne_true),
        if_neg hkw.1.1, if_neg hkw.1.2, if_neg hkw.2, if_pos hvi]
  · have hrv : renderValue (.str s) = '"' :: (escapeChars s ++ ['"']) := by
      simp only [renderValue]
      rw [if_neg hbw]
    rw [hrv]
    simp only [parseValueAll]
    rw [if_pos trivial, parseQuoted_escape]
    rfl

/-- Scalar/reference round trip: rendering a well-formed value and parsing
it back is the identity. -/
theorem parseValueAll_renderValue {v : Value} (h : ValueWF v) :
    parseValueAll (renderValue v) = some v := by
  match v with
  | .null => decide
  | .bool true => decide
  | .bool false => decide
  | .int n => exact parseValueAll_int h.1 h.2
  | .str s => exact parseValueAll_str s
  | .ref path => exact parseValueAll_ref h.1 h.2

/-- Parsing a value only succeeds on well-formed values. -/
theorem parseValueAll_WF {s : Str} {v : Value} (h : parseValueAll s = some v) :
    ValueWF v := by
  match s with
  | [] => simp [parseValueAll] at h
  | c :: rest =>
    simp only [parseValueAll] at h
    by_cases hat : c = '@'
    · rw [if_pos hat] at h
      by_cases hall : (splitSep '.' rest).all validIdent
      · simp only [hall, if_pos] at h
        cases h
        exact ⟨splitSep_ne_nil _ _, hall⟩
      · simp [hall] at h
    · rw [if_neg hat] at h
      by_cases hq : c = '"'
      · rw [if_pos hq] at h
        match hpq : parseQuoted rest with
        | some t => simp only [hpq] at h; cases h; trivial
        | none => simp only [hpq] at h; cases h
      · rw [if_neg hq] at h
        by_cases hdash : c = '-'
        · rw [if_pos hdash] at h
          match hpn : parseNat rest with
          | some m =>
            simp only [hpn] at h
            by_cases hb : m ≤ 9223372036854775808
            · rw [if_pos hb] at h
              cases h
              constructor
              · simp only [intMin]; omega
              · simp only [intMax]; omega
            · rw [if_neg hb] at h; cases h
          | none => simp only [hpn] at h; cases h
        · rw [if_neg hdash] at h
          by_cases hdig : c.isDigit
          · rw [if_pos hdig] at h
            match hpn : parseNat (c :: rest) with
            | some m =>
              simp only [hpn] at h
              by_cases hb : m ≤ 9223372036854775807
              · rw [if_pos hb] at h
                cases h
                constructor
                · simp only [intMin]; omega
                · simp only [intMax]; omega
              · rw [if_neg hb] at h; cases h
            | none => simp only [hpn] at h; cases h
          · rw [if_neg hdig] at h
            by_cases h0 : c :: rest = strLit "null"
            · rw [if_pos h0] at h; cases h; trivial
            · rw [if_neg h0] at h
              by_cases h1 : c :: rest = strLit "true"
              · rw [if_pos h1] at h; cases h; trivial
              · rw [if_neg h1] at h
                by_cases h2 : c :: rest = strLit "false"
                · rw [if_pos h2] at h; cases h; trivial
                · rw [if_neg h2] at h
                  by_cases h3 : validIdent (c :: rest)
                  · rw [if_pos h3] at h; cases h; trivial
                  · rw [if_neg h3] at h; cases h

/-- Rendered well-formed values contain no newline, so rendered lines
stay lines. -/
theorem renderValue_no_nl {v : Value} (hwf : ValueWF v) : '\n' ∉ renderValue v := by
  match v with
  | .null => decide
  | .bool true => decide
  | .bool false => decide
  | .int n =>
    simp only [renderValue, intToChars]
    have hnat : ∀ m : Nat, '\n' ∉ natToChars m := by
      intro m hm
      rw [natToChars_eq_natDigs] at hm
      have := List.all_eq_true.mp (natDigs_all_digit m) _ hm
      have := isDigit_bounds this
      revert this; decide
    split
    · intro hm
      rcases List.mem_cons.mp hm with hm | hm
      · exact absurd hm.symm (by decide)
      · exact hnat _ hm
    · exact hnat _
  | .str s =>
    simp only [renderValue]
    split
    · intro hm
      have hvi : validIdent s = true := by
        rename_i hcond
        exact ((Bool.and_eq_true _ _).mp hcond).1
      have := (identChar_ne_special (validIdent_all_identChar hvi _ hm)).1
      exact this rfl
    · intro hm
      rcases List.mem_cons.mp hm with hm | hm
      · exact absurd hm.symm (by decide)
      · rcases List.mem_append.mp hm with hm | hm
        · exact escapeChars_no_nl s hm
        · simp at hm
  | .ref path =>
    simp only [renderValue]
    intro hm
    rcases List.mem_cons.mp hm with hm | hm
    · exact absurd hm.symm (by decide)
    · -- newline inside the joined path
      have : ∀ ps : List Str, (∀ p ∈ ps, ∀ x ∈ p, isIdentChar x = true) →
          '\n' ∉ joinSep '.' ps := by
        intro ps
        induction ps with
        | nil => intro _; simp [joinSep]
        | cons p qs ih =>
          intro hall hx
          cases qs with
          | nil =>
            simp only [joinSep] at hx
            have := (identChar_ne_special (hall p (by simp) _ hx)).1
            exact this rfl
          | cons q qs2 =>
            simp only [joinSep] at hx
            rcases List.mem_append.mp hx with hx | hx
            · have := (identChar_ne_special (hall p (by simp) _ hx)).1
              exact this rfl
            · rcases List.mem_cons.mp hx with hx | hx
              · exact absurd hx.symm (by decide)
              · exact ih (fun r hr => hall r (by simp [hr])) hx
      refine this path ?_ hm
      intro p hp x hx
      exact validIdent_all_identChar (List.all_eq_true.mp hwf.2 p hp) x hx


/-! ## Lexicographic order on strings and insertion sort (§4.6) -/

/-- Lexicographic comparison of strings by character code. -/
def lexLe : Str → Str → Bool
  | [], _ => true
  | _ :: _, [] => false
  | a :: as, b :: bs =>
    if a.toNat < b.toNat then true
    else if b.toNat < a.toNat then false
    else lexLe as bs

theorem lexLe_total (a b : Str) : lexLe a b = true ∨ lexLe b a = true := by
  induction a generalizing b with
  | nil => left; rfl
  | cons x xs ih =>
    cases b with
    | nil => right; rfl
    | cons y ys =>
      by_cases h1 : x.toNat < y.toNat
      · left; simp [lexLe, h1]
      · by_cases h2 : y.toNat < x.toNat
        · right; simp [lexLe, h2]
        · rcases ih ys with h | h
          · left; simp [lexLe, h1, h2, h]
          · right; simp [lexLe, h1, h2, h]

theorem lexLe_trans {a b c : Str} (h1 : lexLe a b = true) (h2 : lexLe b c = true) :
    lexLe a c = true := by
  induction a generalizing b c with
  | nil => rfl
  | cons x xs ih =>
    cases b with
    | nil => simp [lexLe] at h1
    | cons y ys =>
      cases c with
      | nil => simp [lexLe] at h2
      | cons z zs =>
        simp only [lexLe] at h1 h2 ⊢
        by_cases hxy : x.toNat < y.toNat
        · by_cases hyz : y.toNat < z.toNat
          · rw [if_pos (by omega)]
          · by_cases hzy : z.toNat < y.toNat
            · simp only [hyz, if_false, hzy, if_pos] at h2
              cases h2
            · rw [if_pos (by omega)]
        · by_cases hyx : y.toNat < x.toNat
          · simp only [hxy, if_false, hyx, if_pos] at h1
            cases h1
          · by_cases hyz : y.toNat < z.toNat
            · rw [if_pos (by omega)]
            · by_cases hzy : z.toNat < y.toNat
              · simp only [hyz, if_false, hzy, if_pos] at h2
                cases h2
              · have hxz : ¬ x.toNat < z.toNat := by omega
                have hzx : ¬ z.toNat < x.toNat := by omega
                rw [if_neg hxz, if_neg hzx]
                simp only [hxy, if_false, hyx] at h1
                simp only [hyz, if_false, hzy] at h2
                exact ih h1 h2

/-- Insert into a sorted list, keeping order by `le`. -/
def insertLe {α : Type} (le : α → α → Bool) (a : α) : List α → List α
  | [] => [a]
  | b :: bs => if le a b then a :: b :: bs else b :: insertLe le a bs

/-- Insertion sort by `le`. -/
def sortByLe {α : Type} (le : α → α → Bool) : List α → List α
  | [] => []
  | a :: as => insertLe le a (sortByLe le as)

theorem insertLe_perm {α : Type} (le : α → α → Bool) (a : α) (l : List α) :
    (insertLe le a l).Perm (a :: l) := by
  induction l with
  | nil => simp [insertLe]
  | cons b bs ih =>
    simp only [insertLe]
    by_cases h : le a b
    · simp [h]
    · rw [if_neg h]
      exact (List.Perm.cons b ih).trans (List.Perm.swap a b bs)

theorem sortByLe_perm {α : Type} (le : α → α → Bool) (l : List α) :
    (sortByLe le l).Perm l := by
  induction l with
  | nil => simp [sortByLe]
  | cons a as ih =>
    simp only [sortByLe]
    exact (insertLe_perm le a (sortByLe le as)).trans (List.Perm.cons a ih)

/-- Sortedness as pairwise ordering. -/
def SortedLe {α : Type} (le : α → α → Bool) (l : List α) : Prop :=
  l.Pairwise (fun a b => le a b = true)

theorem insertLe_sorted {α : Type} {le : α → α → Bool}
    (htot : ∀ a b, le a b = true ∨ le b a = true)
    (htr : ∀ {a b c}, le a b = true → le b c = true → le a c = true)
    (a : α) {l : List α} (hs : SortedLe le l) : SortedLe le (insertLe le a l) := by
  induction l with
  | nil => simp [insertLe, SortedLe]
  | cons b bs ih =>
    simp only [insertLe]
    by_cases h : le a b
    · rw [if_pos h]
      constructor
      · intro x hx
        rcases List.mem_cons.mp hx with rfl | hx
        · exact h
        · exact htr h ((List.pairwise_cons.mp hs).1 x hx)
      · exact hs
    · rw [if_neg h]
      have hba : le b a = true := by
        rcases htot a b with h1 | h1
        · exact absurd h1 h
        · exact h1
      have hs' := List.pairwise_cons.mp hs
      constructor
      · intro x hx
        have := (insertLe_perm le a bs).mem_iff.mp hx
        rcases List.mem_cons.mp this with rfl | hx2
        · exact hba
        · exact hs'.1 x hx2
      · exact ih hs'.2

theorem sortByLe_sorted {α : Type} {le : α → α → Bool}
    (htot : ∀ a b, le a b = true ∨ le b a = true)
    (htr : ∀ {a b c}, le a b = true → le b c = true → le a c = true)
    (l : List α) : SortedLe le (sortByLe le l) := by
  induction l with
  | nil => simp [sortByLe, SortedLe]
  | cons a as ih =>
    exact insertLe_sorted htot htr a ih

theorem insertLe_of_le_head {α : Type} {le : α → α → Bool} (a : α) {l : List α}
    (h : ∀ x ∈ l, le a x = true) : insertLe le a l = a :: l := by
  cases l with
  | nil => rfl
  | cons b bs => simp [insertLe, h b (by simp)]

/-- Sorting an already sorted list is the identity. -/
theorem sortByLe_of_sorted {α : Type} {le : α → α → Bool} :
    ∀ {l : List α}, SortedLe le l → sortByLe le l = l := by
  intro l
  induction l with
  | nil => intro _; rfl
  | cons a as ih =>
    intro hs
    have hs' := List.pairwise_cons.mp hs
    simp only [sortByLe, ih hs'.2]
    exact insertLe_of_le_head a hs'.1

/-- Sorting is idempotent. -/
theorem sortByLe_idem {α : Type} {le : α → α → Bool}
    (htot : ∀ a b, le a b = true ∨ le b a = true)
    (htr : ∀ {a b c}, le a b = true → le b c = true → le a c = true)
    (l : List α) : sortByLe le (sortByLe le l) = sortByLe le l :=
  sortByLe_of_sorted (sortByLe_sorted htot htr l)


/-! ## Document model (§3) -/

/-- Modelled from the spec (§3 Schema): a field declaration
`(field-name, declared-type)`; the optional-field and default syntax is
outside the modelled fragment. -/
structure FieldDecl where
  name : Str
  ty : Str
  deriving DecidableEq

/-- Modelled from the spec (§3 Schema): a named record type with an
ordered field list. -/
structure Schema where
  name : Str
  fields : List FieldDecl
  deriving DecidableEq

/-- Modelled from the spec (§3 Alias): `alias-name → scalar-or-reference`. -/
structure AliasDef where
  name : Str
  value : Value
  deriving DecidableEq

/-- Modelled from the spec (§3 Span): `(start-offset, end-offset, line,
column)`, line and column 1-based. -/
structure Span where
  start : Nat
  stop : Nat
  line : Nat
  col : Nat
  deriving DecidableEq

/-- A top-level `(key, Value)` pair with the span of its value. -/
structure RootItem where
  key : Str
  value : Value
  vspan : Span
  deriving DecidableEq

/-- Modelled from the spec (§4.9): a diagnostic
`(severity, code, message, primary-span)` with severity `Hint(0)`,
`Warning(1)`, `Error(2)`. -/
structure Diagnostic where
  severity : Nat
  code : Str
  message : Str
  span : Span
  deriving DecidableEq

/-- Modelled from the spec (§3 Document): version, schema definitions,
aliases, root items and the diagnostic buffer accumulated during
resolution. -/
structure Doc where
  major : Nat
  minor : Nat
  schemas : List Schema
  aliases : List AliasDef
  rootItems : List RootItem
  diags : List Diagnostic
  deriving DecidableEq

/-! ## Line renderers (canonicalizer §4.6) -/

/-- Join with `", "` between pieces. -/
def joinCommaSpace : List Str → Str
  | [] => []
  | [p] => p
  | p :: ps => p ++ ',' :: ' ' :: joinCommaSpace ps

def renderField (fd : FieldDecl) : Str := fd.name ++ strLit ": " ++ fd.ty

def renderSchemaBody : List FieldDecl → Str
  | [] => strLit " \x7b\x7d"
  | fs => strLit " \x7b " ++ (joinCommaSpace (fs.map renderField) ++ strLit " \x7d")

def renderSchemaLine (sc : Schema) : Str :=
  strLit "%SCHEMA: " ++ (sc.name ++ renderSchemaBody sc.fields)

def renderAliasLine (a : AliasDef) : Str :=
  strLit "%ALIAS: " ++ (a.name ++ (strLit " = " ++ renderValue a.value))

def renderVersionLine (major minor : Nat) : Str :=
  strLit "%VERSION: " ++ (natToChars major ++ '.' :: natToChars minor)

def renderItemLine (it : RootItem) : Str :=
  it.key ++ (strLit ": " ++ renderValue it.value)

/-- The document separator line `---`. -/
def sepLine : Str := strLit "---"

/-! ## Line parsers (§4.2 Lexer, §4.3 Parser) -/

/-- Strip an exact prefix. -/
def stripPre : Str → Str → Option Str
  | [], s => some s
  | _ :: _, [] => none
  | p :: ps, c :: cs => if p = c then stripPre ps cs else none

theorem stripPre_append (p r : Str) : stripPre p (p ++ r) = some r := by
  induction p with
  | nil => rfl
  | cons c cs ih => simp [stripPre, ih]

theorem stripPre_some {p s r : Str} (h : stripPre p s = some r) : s = p ++ r := by
  induction p generalizing s with
  | nil => simpa [stripPre] using h
  | cons c cs ih =>
    match s with
    | [] => simp [stripPre] at h
    | d :: ds =>
      simp only [stripPre] at h
      by_cases hc : c = d
      · subst hc
        rw [if_pos rfl] at h
        simpa using ih h
      · simp [hc] at h

/-- Strip an exact suffix. -/
def stripSuf (suf s : Str) : Option Str :=
  (stripPre suf.reverse s.reverse).map List.reverse

theorem stripSuf_append (suf r : Str) : stripSuf suf (r ++ suf) = some r := by
  simp [stripSuf, List.reverse_append, stripPre_append]

theorem stripSuf_some {suf s r : Str} (h : stripSuf suf s = some r) :
    s = r ++ suf := by
  simp only [stripSuf, Option.map_eq_some'] at h
  obtain ⟨t, ht, rfl⟩ := h
  have := stripPre_some ht
  have h2 := congrArg List.reverse this
  simpa [List.reverse_append] using h2

/-- Parse one field declaration `name: type`. -/
def parseField (q : Str) : Option FieldDecl :=
  match parseIdent q with
  | some (nm, r1) =>
    match stripPre (strLit ": ") r1 with
    | some ty => if validIdent ty then some ⟨nm, ty⟩ else none
    | none => none
  | none => none

/-- Parse the comma-separated field pieces after the first (each begins
with the space that followed the comma). -/
def parseFieldsGo : List Str → Option (List FieldDecl)
  | [] => some []
  | p :: ps =>
    match p with
    | [] => none
    | c :: q =>
      if c = ' ' then
        match parseField q, parseFieldsGo ps with
        | some fd, some fds => some (fd :: fds)
        | _, _ => none
      else none

/-- Parse a non-empty `", "`-separated field list. -/
def parseFieldsStr (inner : Str) : Option (List FieldDecl) :=
  match splitSep ',' inner with
  | [] => none
  | p :: ps =>
    match parseField p, parseFieldsGo ps with
    | some fd, some fds => some (fd :: fds)
    | _, _ => none

/-- Parse what follows `%SCHEMA: `. -/
def parseSchemaRest (rest : Str) : Option Schema :=
  match parseIdent rest with
  | some (nm, r1) =>
    if r1 = strLit " \x7b\x7d" then some ⟨nm, []⟩
    else
      match stripPre (strLit " \x7b ") r1 with
      | some r2 =>
        match stripSuf (strLit " \x7d") r2 with
        | some inner => (parseFieldsStr inner).map (fun fs => ⟨nm, fs⟩)
        | none => none
      | none => none
  | none => none

/-- Parse what follows `%VERSION: `: exactly `MAJOR.MINOR`. -/
def parseVersionRest (rest : Str) : Option (Nat × Nat) :=
  match splitSep '.' rest with
  | [a, b] =>
    match parseNat a, parseNat b with
    | some major, some minor => some (major, minor)
    | _, _ => none
  | _ => none

/-- Parse what follows `%ALIAS: `: `name = value`. -/
def parseAliasRest (rest : Str) : Option AliasDef :=
  match parseIdent rest with
  | some (nm, r1) =>
    match stripPre (strLit " = ") r1 with
    | some r2 => (parseValueAll r2).map (fun v => ⟨nm, v⟩)
    | none => none
  | none => none

/-- A parsed directive. -/
inductive Dir where
  | ver (major minor : Nat)
  | schemaD (s : Schema)
  | aliasD (a : AliasDef)
  deriving DecidableEq

/-- Modelled from the spec (§4.3, §6): parse one prologue directive line. -/
def parseDirLine (l : Str) : Option Dir :=
  match stripPre (strLit "%VERSION: ") l with
  | some rest => (parseVersionRest rest).map (fun p => .ver p.1 p.2)
  | none =>
    match stripPre (strLit "%SCHEMA: ") l with
    | some rest => (parseSchemaRest rest).map .schemaD
    | none =>
      match stripPre (strLit "%ALIAS: ") l with
      | some rest => (parseAliasRest rest).map .aliasD
      | none => none

/-- Modelled from the spec (§4.3 body grammar): parse one body line
`key: value`, recording the span of the value. -/
def parseItemLine (lineIdx off : Nat) (l : Str) : Option RootItem :=
  match parseIdent l with
  | some (k, r1) =>
    match stripPre (strLit ": ") r1 with
    | some r2 =>
      (parseValueAll r2).map (fun v =>
        ⟨k, v, ⟨off + k.length + 2, off + l.length, lineIdx + 1, k.length + 3⟩⟩)
    | none => none
  | none => none


/-! ## Well-formedness of parsed components -/

/-- Schema invariant guaranteed by the parser. -/
def SchemaWF (sc : Schema) : Prop :=
  validIdent sc.name = true ∧
    ∀ fd ∈ sc.fields, validIdent fd.name = true ∧ validIdent fd.ty = true

/-- Alias invariant guaranteed by the parser. -/
def AliasWF (a : AliasDef) : Prop :=
  validIdent a.name = true ∧ ValueWF a.value

/-- Root-item invariant guaranteed by the parser. -/
def ItemWF (it : RootItem) : Prop :=
  validIdent it.key = true ∧ ValueWF it.value

/-! ## Round trips for rendered lines -/

theorem not_identChar_space : isIdentChar ' ' = false := by decide

theorem not_identChar_colon : isIdentChar ':' = false := by decide

theorem parseField_renderField {fd : FieldDecl} (h1 : validIdent fd.name = true)
    (h2 : validIdent fd.ty = true) : parseField (renderField fd) = some fd := by
  have hrest : parseIdent (fd.name ++ (strLit ": " ++ fd.ty)) =
      some (fd.name, strLit ": " ++ fd.ty) := by
    refine parseIdent_append h1 ?_
    intro _
    simp [strLit, not_identChar_colon]
  simp only [renderField, List.append_assoc]
  simp only [parseField, hrest, stripPre_append, h2, if_pos]

theorem renderField_no_comma {fd : FieldDecl} (h1 : validIdent fd.name = true)
    (h2 : validIdent fd.ty = true) : ',' ∉ renderField fd := by
  intro hm
  simp only [renderField, List.append_assoc, List.mem_append] at hm
  rcases hm with hm | hm | hm
  · exact (identChar_ne_special (validIdent_all_identChar h1 _ hm)).2.2.2.2.1 rfl
  · revert hm; decide
  · exact (identChar_ne_special (validIdent_all_identChar h2 _ hm)).2.2.2.2.1 rfl

theorem splitSep_joinCommaSpace :
    ∀ {ps : List Str}, (∀ p ∈ ps, ',' ∉ p) →
      ∀ p, ',' ∉ p →
        splitSep ',' (joinCommaSpace (p :: ps)) = p :: ps.map (fun q => ' ' :: q) := by
  intro ps
  induction ps with
  | nil =>
    intro _ p hp
    simpa [joinCommaSpace] using splitSep_no_sep hp
  | cons q qs ih =>
    intro hall p hp
    have hq : ',' ∉ q := hall q (by simp)
    have hqs : ∀ r ∈ qs, ',' ∉ r := fun r hr => hall r (by simp [hr])
    simp only [joinCommaSpace]
    rw [splitSep_append_sep hp]
    have hsp : ' ' :: joinCommaSpace (q :: qs) = joinCommaSpace ((' ' :: q) :: qs) := by
      cases qs <;> simp [joinCommaSpace]
    rw [hsp, ih hqs (' ' :: q) (by
      intro hm
      rcases List.mem_cons.mp hm with hm | hm
      · exact absurd hm.symm (by decide)
      · exact hq hm)]
    simp

theorem parseFieldsGo_map {fds : List FieldDecl}
    (h : ∀ fd ∈ fds, validIdent fd.name = true ∧ validIdent fd.ty = true) :
    parseFieldsGo (fds.map (fun fd => ' ' :: renderField fd)) = some fds := by
  induction fds with
  | nil => rfl
  | cons fd rest ih =>
    have h1 := h fd (by simp)
    simp only [List.map_cons, parseFieldsGo,
      parseField_renderField h1.1 h1.2, ih (fun x hx => h x (by simp [hx]))]
    rw [if_pos trivial]

theorem parseFieldsStr_render {fds : List FieldDecl} (hne : fds ≠ [])
    (h : ∀ fd ∈ fds, validIdent fd.name = true ∧ validIdent fd.ty = true) :
    parseFieldsStr (joinCommaSpace (fds.map renderField)) = some fds := by
  match fds with
  | [] => exact absurd rfl hne
  | fd :: rest =>
    have h1 := h fd (by simp)
    have hnc : ∀ p ∈ rest.map renderField, ',' ∉ p := by
      intro p hp
      obtain ⟨x, hx, rfl⟩ := List.mem_map.mp hp
      have := h x (by simp [hx])
      exact renderField_no_comma this.1 this.2
    have hrest : ∀ x ∈ rest, validIdent x.name = true ∧ validIdent x.ty = true :=
      fun x hx => h x (List.mem_cons_of_mem fd hx)
    simp only [List.map_cons]
    rw [parseFieldsStr,
      splitSep_joinCommaSpace hnc (renderField fd) (renderField_no_comma h1.1 h1.2)]
    have hmapmap : (rest.map renderField).map (fun q => ' ' :: q) =
        rest.map (fun x => ' ' :: renderField x) := by
      simp [List.map_map, Function.comp]
    simp only [hmapmap, parseField_renderField h1.1 h1.2, parseFieldsGo_map hrest]

theorem not_identChar_head_space :
    ∀ (r : Str) (c : Char) (h : (c :: r) ≠ []), c = ' ' →
      ¬ isIdentChar ((c :: r).head h) = true := by
  intro r c h hc
  subst hc
  simp [not_identChar_space]

theorem parseSchemaRest_render {sc : Schema} (h : SchemaWF sc) :
    parseSchemaRest (sc.name ++ renderSchemaBody sc.fields) = some sc := by
  match hsc : sc.fields with
  | [] =>
    simp only [renderSchemaBody]
    have hid : parseIdent (sc.name ++ strLit " \x7b\x7d") =
        some (sc.name, strLit " \x7b\x7d") := by
      refine parseIdent_append h.1 ?_
      intro hne
      simp [strLit, not_identChar_space]
    simp only [parseSchemaRest, hid, if_pos rfl]
    cases sc with
    | mk n f => simp only at hsc; simp [hsc]
  | fd :: rest =>
    simp only [renderSchemaBody]
    have hid : parseIdent (sc.name ++
        (strLit " \x7b " ++ (joinCommaSpace ((fd :: rest).map renderField) ++ strLit " \x7d"))) =
        some (sc.name, strLit " \x7b " ++
          (joinCommaSpace ((fd :: rest).map renderField) ++ strLit " \x7d")) := by
      refine parseIdent_append h.1 ?_
      intro hne
      simp [strLit, not_identChar_space]
    have hWF : ∀ x ∈ fd :: rest, validIdent x.name = true ∧ validIdent x.ty = true := by
      intro x hx
      apply h.2
      rw [hsc]; exact hx
    simp only [parseSchemaRest, hid]
    rw [if_neg (by simp [strLit])]
    simp only [stripPre_append, stripSuf_append,
      parseFieldsStr_render (List.cons_ne_nil fd rest) hWF, Option.map_some']
    cases sc with
    | mk n f => simp only at hsc; simp [hsc]

theorem stripPre_ver_schema (X : Str) :
    stripPre (strLit "%VERSION: ") (strLit "%SCHEMA: " ++ X) = none := rfl

theorem stripPre_ver_alias (X : Str) :
    stripPre (strLit "%VERSION: ") (strLit "%ALIAS: " ++ X) = none := rfl

theorem stripPre_schema_alias (X : Str) :
    stripPre (strLit "%SCHEMA: ") (strLit "%ALIAS: " ++ X) = none := rfl

/-- A rendered `%VERSION` directive parses back to the same version. -/
theorem parseDirLine_version (major minor : Nat) :
    parseDirLine (renderVersionLine major minor) = some (.ver major minor) := by
  simp only [renderVersionLine, parseDirLine, stripPre_append]
  have hdot : ∀ m : Nat, ('.' : Char) ∉ natToChars m := by
    intro m hm
    have := isDigit_bounds (natToChars_all_digit m '.' hm)
    revert this; decide
  rw [parseVersionRest, splitSep_append_sep (hdot major), splitSep_no_sep (hdot minor)]
  simp [parseNat_natToChars]

/-- A rendered `%SCHEMA` directive parses back to the same schema. -/
theorem parseDirLine_schema {sc : Schema} (h : SchemaWF sc) :
    parseDirLine (renderSchemaLine sc) = some (.schemaD sc) := by
  simp only [renderSchemaLine, parseDirLine, stripPre_ver_schema, stripPre_append]
  rw [parseSchemaRest_render h]
  rfl

/-- A rendered `%ALIAS` directive parses back to the same alias. -/
theorem parseDirLine_alias {a : AliasDef} (h : AliasWF a) :
    parseDirLine (renderAliasLine a) = some (.aliasD a) := by
  simp only [renderAliasLine, parseDirLine, stripPre_ver_alias,
    stripPre_schema_alias, stripPre_append]
  have hid : parseIdent (a.name ++ (strLit " = " ++ renderValue a.value)) =
      some (a.name, strLit " = " ++ renderValue a.value) := by
    refine parseIdent_append h.1 ?_
    intro hne
    simp [strLit, not_identChar_space]
  rw [parseAliasRest, hid]
  simp only [stripPre_append, parseValueAll_renderValue h.2]
  rfl

/-- A rendered body line parses back to the same key and value (with the
span recomputed for the new position). -/
theorem parseItemLine_render {it : RootItem} (h : ItemWF it) (lineIdx off : Nat) :
    parseItemLine lineIdx off (renderItemLine it) =
      some ⟨it.key, it.value,
        ⟨off + it.key.length + 2, off + (renderItemLine it).length,
         lineIdx + 1, it.key.length + 3⟩⟩ := by
  have hid : parseIdent (it.key ++ (strLit ": " ++ renderValue it.value)) =
      some (it.key, strLit ": " ++ renderValue it.value) := by
    refine parseIdent_append h.1 ?_
    intro hne
    simp [strLit, not_identChar_colon]
  simp only [renderItemLine, parseItemLine, hid, stripPre_append,
    parseValueAll_renderValue h.2]
  rfl


/-! ## Parser success implies well-formedness -/

theorem parseField_WF {q : Str} {fd : FieldDecl} (h : parseField q = some fd) :
    validIdent fd.name = true ∧ validIdent fd.ty = true := by
  simp only [parseField] at h
  match hq : parseIdent q with
  | none => simp only [hq] at h; cases h
  | some (nm, r1) =>
    simp only [hq] at h
    match hs : stripPre (strLit ": ") r1 with
    | none => simp only [hs] at h; cases h
    | some ty =>
      simp only [hs] at h
      by_cases hv : validIdent ty
      · rw [if_pos hv] at h
        cases h
        exact ⟨parseIdent_valid hq, hv⟩
      · rw [if_neg hv] at h
        cases h

theorem parseFieldsGo_WF {ps : List Str} {fds : List FieldDecl}
    (h : parseFieldsGo ps = some fds) :
    ∀ fd ∈ fds, validIdent fd.name = true ∧ validIdent fd.ty = true := by
  induction ps generalizing fds with
  | nil =>
    simp only [parseFieldsGo] at h
    cases h
    intro fd hfd
    cases hfd
  | cons p ps ih =>
    simp only [parseFieldsGo] at h
    match p with
    | [] => cases h
    | c :: q =>
      simp only at h
      by_cases hc : c = ' '
      · rw [if_pos hc] at h
        match hf : parseField q, hg : parseFieldsGo ps with
        | some fd, some fds2 =>
          simp only [hf, hg] at h
          cases h
          intro x hx
          rcases List.mem_cons.mp hx with rfl | hx
          · exact parseField_WF hf
          · exact ih hg x hx
        | some fd, none => simp only [hf, hg] at h; cases h
        | none, _ => simp only [hf] at h; cases h
      · rw [if_neg hc] at h
        cases h

theorem parseFieldsStr_WF {inner : Str} {fds : List FieldDecl}
    (h : parseFieldsStr inner = some fds) :
    ∀ fd ∈ fds, validIdent fd.name = true ∧ validIdent fd.ty = true := by
  simp only [parseFieldsStr] at h
  match hs : splitSep ',' inner with
  | [] => simp only [hs] at h; cases h
  | p :: ps =>
    simp only [hs] at h
    match hf : parseField p, hg : parseFieldsGo ps with
    | some fd, some fds2 =>
      simp only [hf, hg] at h
      cases h
      intro x hx
      rcases List.mem_cons.mp hx with rfl | hx
      · exact parseField_WF hf
      · exact parseFieldsGo_WF hg x hx
    | some fd, none => simp only [hf, hg] at h; cases h
    | none, _ => simp only [hf] at h; cases h

theorem parseSchemaRest_WF {rest : Str} {sc : Schema}
    (h : parseSchemaRest rest = some sc) : SchemaWF sc := by
  simp only [parseSchemaRest] at h
  match hq : parseIdent rest with
  | none => simp only [hq] at h; cases h
  | some (nm, r1) =>
    simp only [hq] at h
    by_cases he : r1 = strLit " \x7b\x7d"
    · rw [if_pos he] at h
      cases h
      exact ⟨parseIdent_valid hq, by intro fd hfd; cases hfd⟩
    · rw [if_neg he] at h
      match hs : stripPre (strLit " \x7b ") r1 with
      | none => simp only [hs] at h; cases h
      | some r2 =>
        simp only [hs] at h
        match ht : stripSuf (strLit " \x7d") r2 with
        | none => simp only [ht] at h; cases h
        | some inner =>
          simp only [ht, Option.map_eq_some'] at h
          obtain ⟨fs, hfs, rfl⟩ := h
          exact ⟨parseIdent_valid hq, by
            intro fd hfd
            exact parseFieldsStr_WF hfs fd hfd⟩

theorem parseAliasRest_WF {rest : Str} {a : AliasDef}
    (h : parseAliasRest rest = some a) : AliasWF a := by
  simp only [parseAliasRest] at h
  match hq : parseIdent rest with
  | none => simp only [hq] at h; cases h
  | some (nm, r1) =>
    simp only [hq] at h
    match hs : stripPre (strLit " = ") r1 with
    | none => simp only [hs] at h; cases h
    | some r2 =>
      simp only [hs, Option.map_eq_some'] at h
      obtain ⟨v, hv, rfl⟩ := h
      exact ⟨parseIdent_valid hq, parseValueAll_WF hv⟩

/-- Well-formedness of a parsed directive. -/
def DirWF : Dir → Prop
  | .ver _ _ => True
  | .schemaD s => SchemaWF s
  | .aliasD a => AliasWF a

theorem parseDirLine_WF {l : Str} {d : Dir} (h : parseDirLine l = some d) :
    DirWF d := by
  simp only [parseDirLine] at h
  match h1 : stripPre (strLit "%VERSION: ") l with
  | some rest =>
    simp only [h1, Option.map_eq_some'] at h
    obtain ⟨p, _, rfl⟩ := h
    trivial
  | none =>
    simp only [h1] at h
    match h2 : stripPre (strLit "%SCHEMA: ") l with
    | some rest =>
      simp only [h2, Option.map_eq_some'] at h
      obtain ⟨sc, hsc, rfl⟩ := h
      exact parseSchemaRest_WF hsc
    | none =>
      simp only [h2] at h
      match h3 : stripPre (strLit "%ALIAS: ") l with
      | some rest =>
        simp only [h3, Option.map_eq_some'] at h
        obtain ⟨a, ha, rfl⟩ := h
        exact parseAliasRest_WF ha
      | none => simp only [h3] at h; cases h

theorem parseItemLine_WF {lineIdx off : Nat} {l : Str} {it : RootItem}
    (h : parseItemLine lineIdx off l = some it) : ItemWF it := by
  simp only [parseItemLine] at h
  match hq : parseIdent l with
  | none => simp only [hq] at h; cases h
  | some (k, r1) =>
    simp only [hq] at h
    match hs : stripPre (strLit ": ") r1 with
    | none => simp only [hs] at h; cases h
    | some r2 =>
      simp only [hs, Option.map_eq_some'] at h
      obtain ⟨v, hv, rfl⟩ := h
      exact ⟨parseIdent_valid hq, parseValueAll_WF hv⟩


/-! ## Full-document parsing pipeline (§4.1-§4.5) -/

/-- A numbered line: (line index from 0, byte offset of line start,
content).  The offsets implement the source reader line index (§4.1). -/
abbrev LineE := Nat × Nat × Str

/-- Number the lines of a split source with indices and byte offsets. -/
def numberGo (i off : Nat) : List Str → List LineE
  | [] => []
  | l :: ls => (i, off, l) :: numberGo (i + 1) (off + l.length + 1) ls

/-- Modelled from the spec (§4.2): blank lines and whole-line `#` comments
produce no statements. -/
def keepLine (e : LineE) : Bool :=
  match e.2.2 with
  | [] => false
  | c :: _ => decide (c ≠ '#')

/-- Split the line list at the first `---` separator line (§6: a line
containing exactly `---`). -/
def splitAtSepGo : List LineE → Option (List LineE × List LineE)
  | [] => none
  | e :: rest =>
    if e.2.2 = sepLine then some ([], rest)
    else
      match splitAtSepGo rest with
      | none => none
      | some (a, b) => some (e :: a, b)

/-- Modelled from the spec (§4.3, §6): fold over the prologue directive
lines.  Exactly one `%VERSION` is permitted; schemas and aliases are
collected in order of appearance. -/
def parsePrologueGo :
    Option (Nat × Nat) → List Schema → List AliasDef → List Str →
      Except Str (Nat × Nat × List Schema × List AliasDef)
  | v, ss, als, [] =>
    match v with
    | some (major, minor) => .ok (major, minor, ss, als)
    | none => .error (strLit "missing %VERSION directive")
  | v, ss, als, l :: rest =>
    match parseDirLine l with
    | none => .error (strLit "invalid directive line")
    | some (.ver major minor) =>
      match v with
      | some _ => .error (strLit "duplicate %VERSION directive")
      | none => parsePrologueGo (some (major, minor)) ss als rest
    | some (.schemaD s) => parsePrologueGo v (ss ++ [s]) als rest
    | some (.aliasD a) => parsePrologueGo v ss (als ++ [a]) rest

/-- Parse the body lines into root items. -/
def parseBody : List LineE → Except Str (List RootItem)
  | [] => .ok []
  | (i, off, l) :: rest =>
    match parseItemLine i off l with
    | none => .error (strLit "invalid body line")
    | some it =>
      match parseBody rest with
      | .ok items => .ok (it :: items)
      | .error e => .error e

/-- Continuation of the syntactic phase after locating the separator. -/
def parseRawSplit : Option (List LineE × List LineE) → Except Str Doc
  | none => .error (strLit "missing --- separator line")
  | some (pro, body) =>
    match parsePrologueGo none [] [] (pro.map (fun e => e.2.2)) with
    | .error e => .error e
    | .ok (major, minor, ss, als) =>
      match parseBody body with
      | .error e => .error e
      | .ok items => .ok ⟨major, minor, ss, als, items, []⟩

/-- Modelled from the spec (§4.1-§4.3): the syntactic phase of parsing,
producing a document with an empty diagnostic buffer. -/
def parseRaw (s : Str) : Except Str Doc :=
  parseRawSplit (splitAtSepGo ((numberGo 0 0 (splitSep '\n' s)).filter keepLine))

/-! ## Resolver (§4.5) -/

/-- Boolean duplicate-freeness check. -/
def nodupB : List Str → Bool
  | [] => true
  | x :: xs => !(decide (x ∈ xs)) && nodupB xs

/-- Field names within a schema must be unique (§3 invariant). -/
def fieldNamesNodup (sc : Schema) : Bool := nodupB (sc.fields.map (·.name))

/-- Modelled from the spec (§4.5 pass 1): declaration pass — name
collisions are hard errors, schema field uniqueness is validated. -/
def checkDecls (d : Doc) : Except Str Unit :=
  if nodupB (d.schemas.map (·.name)) then
    if nodupB (d.aliases.map (·.name)) then
      if nodupB (d.rootItems.map (·.key)) then
        if d.schemas.all fieldNamesNodup then .ok ()
        else .error (strLit "duplicate field name in schema")
      else .error (strLit "duplicate root key")
    else .error (strLit "duplicate alias name")
  else .error (strLit "duplicate schema name")

def lookupAlias (als : List AliasDef) (n : Str) : Option AliasDef :=
  als.find? (fun a => decide (a.name = n))

def lookupSchema (ss : List Schema) (n : Str) : Option Schema :=
  ss.find? (fun sc => decide (sc.name = n))

/-- Follow the alias dependency chain from `n`; returns the witnessing
path when it closes a cycle.  Fuel-driven: one alias count plus one
suffices for any cycle. -/
def chaseGo (als : List AliasDef) : Nat → List Str → Str → Option (List Str)
  | 0, _, _ => none
  | f + 1, visited, n =>
    if n ∈ visited then some (visited.reverse ++ [n])
    else
      match lookupAlias als n with
      | none => none
      | some a =>
        match a.value with
        | .ref [m] =>
          if (lookupAlias als m).isSome then chaseGo als f (n :: visited) m
          else none
        | _ => none

def findCycleGo (als : List AliasDef) : List AliasDef → Option (List Str)
  | [] => none
  | a :: rest =>
    match chaseGo als (als.length + 1) [] a.name with
    | some cyc => some cyc
    | none => findCycleGo als rest

/-- Modelled from the spec (§4.5 pass 2): detect a cycle in the alias
reference graph. -/
def findCycle (als : List AliasDef) : Option (List Str) := findCycleGo als als

def joinArrow : List Str → Str
  | [] => []
  | [p] => p
  | p :: ps => p ++ (strLit " -> " ++ joinArrow ps)

/-- Alias-cycle detection as a pipeline stage; a cycle is a hard error
naming the aliases on the cycle (§7, §8 S5). -/
def checkAliases (d : Doc) : Except Str Unit :=
  match findCycle d.aliases with
  | some cyc => .error (strLit "alias cycle detected: " ++ joinArrow cyc)
  | none => .ok ()

/-- Modelled from the spec (§4.5 pass 3): a reference resolves against
the alias table, then the schema table, then dotted `schema.field`
paths. -/
def resolvesPath (als : List AliasDef) (ss : List Schema) : List Str → Bool
  | [n] => (lookupAlias als n).isSome || (lookupSchema ss n).isSome
  | [s, f] =>
    match lookupSchema ss s with
    | some sc => sc.fields.any (fun fd => decide (fd.name = f))
    | none => false
  | _ => false

/-- The all-zero span used for diagnostics that have no tracked span. -/
def zeroSpan : Span := ⟨0, 0, 0, 0⟩

def spanMsg (sp : Span) : Str :=
  strLit "line " ++ (natToChars sp.line ++ (strLit " column " ++ natToChars sp.col))

def refMsg (p : List Str) (sp : Span) : Str :=
  strLit "unresolved reference @" ++ (joinSep '.' p ++ (strLit " at " ++ spanMsg sp))

/-- Reference pass over alias values: strict mode raises the first
unresolved reference as a hard error, lenient mode records diagnostics. -/
def checkAliasRefs (als : List AliasDef) (ss : List Schema) (strict : Bool) :
    List AliasDef → Except Str (List Diagnostic)
  | [] => .ok []
  | a :: rest =>
    match a.value with
    | .ref p =>
      if resolvesPath als ss p then checkAliasRefs als ss strict rest
      else if strict then .error (refMsg p zeroSpan)
      else
        match checkAliasRefs als ss strict rest with
        | .ok ds => .ok (⟨2, strLit "E0001", refMsg p zeroSpan, zeroSpan⟩ :: ds)
        | .error e => .error e
    | _ => checkAliasRefs als ss strict rest

/-- Reference pass over root items. -/
def checkItemRefs (als : List AliasDef) (ss : List Schema) (strict : Bool) :
    List RootItem → Except Str (List Diagnostic)
  | [] => .ok []
  | it :: rest =>
    match it.value with
    | .ref p =>
      if resolvesPath als ss p then checkItemRefs als ss strict rest
      else if strict then .error (refMsg p it.vspan)
      else
        match checkItemRefs als ss strict rest with
        | .ok ds => .ok (⟨2, strLit "E0001", refMsg p it.vspan, it.vspan⟩ :: ds)
        | .error e => .error e
    | _ => checkItemRefs als ss strict rest

/-- Modelled from the spec (§4.5 pass 3): the reference pass. -/
def checkRefs (strict : Bool) (d : Doc) : Except Str (List Diagnostic) :=
  match checkAliasRefs d.aliases d.schemas strict d.aliases with
  | .error e => .error e
  | .ok ds1 =>
    match checkItemRefs d.aliases d.schemas strict d.rootItems with
    | .error e => .error e
    | .ok ds2 => .ok (ds1 ++ ds2)

/-- Modelled from the spec (§2, §4.3, §4.5): the full parse — syntactic
phase followed by the three resolver passes.  `strict` distinguishes
hard-failure resolution from lenient diagnostic collection. -/
def parseDoc (s : Str) (strict : Bool) : Except Str Doc :=
  match parseRaw s with
  | .error e => .error e
  | .ok d =>
    match checkDecls d with
    | .error e => .error e
    | .ok () =>
      match checkAliases d with
      | .error e => .error e
      | .ok () =>
        match checkRefs strict d with
        | .error e => .error e
        | .ok ds => .ok { d with diags := ds }

/-! ## Canonicalizer (§4.6) -/

def schemaLe (a b : Schema) : Bool := lexLe a.name b.name

def aliasLe (a b : AliasDef) : Bool := lexLe a.name b.name

/-- Modelled from the spec (§4.6): the canonical line sequence —
`%VERSION` first, `%SCHEMA` definitions in lexicographic name order, then
`%ALIAS` definitions in lexicographic name order, the separator, then root
items in original insertion order. -/
def canonLines (d : Doc) : List Str :=
  renderVersionLine d.major d.minor ::
    ((sortByLe schemaLe d.schemas).map renderSchemaLine ++
      ((sortByLe aliasLe d.aliases).map renderAliasLine ++
        sepLine :: d.rootItems.map renderItemLine))

/-- Modelled from the spec (§4.6): the canonical text — the canonical
lines joined by newlines with exactly one terminating newline. -/
def canonicalize (d : Doc) : Str := joinSep '\n' (canonLines d) ++ ['\n']


/-! ## Alias value resolution (§4.5 pass 2, traversal §4.8) -/

/-- Follow alias indirections to the resolved value (fuel bounded by the
alias count; the alias graph is acyclic for documents that passed the
resolver). -/
def resolveValueGo (als : List AliasDef) : Nat → Value → Value
  | 0, v => v
  | f + 1, v =>
    match v with
    | .ref [n] =>
      match lookupAlias als n with
      | some a => resolveValueGo als f a.value
      | none => v
    | _ => v

/-- The resolved value of a value in a document. -/
def resolveValue (d : Doc) (v : Value) : Value :=
  resolveValueGo d.aliases (d.aliases.length + 1) v

/-- The resolved value of a root item, looked up by key. -/
def docResolvedValue (d : Doc) (k : Str) : Option Value :=
  (d.rootItems.find? (fun it => decide (it.key = k))).map
    (fun it => resolveValue d it.value)

/-! ## Linter (§4.7) -/

/-- Heads of reference paths occurring in a value (the names a value can
make "used"). -/
def refHeads : Value → List Str
  | .ref (n :: _) => [n]
  | _ => []

def collectRefHeads : List Value → List Str
  | [] => []
  | v :: vs => refHeads v ++ collectRefHeads vs

/-- Diagnostics are ordered by primary-span start offset (§4.9). -/
def diagLe (a b : Diagnostic) : Bool := decide (a.span.start ≤ b.span.start)

/-- Modelled from the spec (§4.7): "duplicate value under different alias
names" hints. -/
def dupValueHints : List AliasDef → List Diagnostic
  | [] => []
  | a :: rest =>
    (if rest.any (fun b => decide (b.value = a.value)) then
      [⟨0, strLit "H0201",
        strLit "duplicate value under different alias names: " ++ a.name, zeroSpan⟩]
     else []) ++ dupValueHints rest

/-- Modelled from the spec (§4.7): the linter over the resolved model.
Carried lenient-resolution diagnostics surface as errors; unused aliases
are warnings; unused schemas are hints; duplicate alias values are hints.
The record/matrix/deep-nesting checks concern collection values outside
the modelled scalar fragment, and non-ASCII identifiers cannot occur
because the modelled bareword grammar is ASCII.  Linting does not mutate
the document. -/
def lintDoc (d : Doc) : List Diagnostic :=
  let used := collectRefHeads (d.aliases.map (·.value) ++ d.rootItems.map (·.value))
  sortByLe diagLe
    (d.diags ++
      ((d.aliases.filter (fun a => decide (a.name ∉ used))).map
        (fun a => ⟨1, strLit "W0100", strLit "unused alias " ++ a.name, zeroSpan⟩) ++
        ((d.schemas.filter (fun s => decide (s.name ∉ used))).map
          (fun s => ⟨0, strLit "H0200", strLit "unused schema " ++ s.name, zeroSpan⟩) ++
          dupValueHints d.aliases)))

/-! ## FFI surface (crates/hedl-ffi/hedl.h) -/

/-- The error kinds of the C error taxonomy (§6; `HEDL_OK` and the twelve
negative codes of `hedl.h`). -/
inductive HedlErr where
  | nullPtr
  | invalidUtf8
  | parse (m : Str)
  | canonicalizeErr (m : Str)
  | emitJson (m : Str)
  | alloc
  | emitYaml (m : Str)
  | emitXml (m : Str)
  | emitCsv (m : Str)
  | emitParquet (m : Str)
  | lintErr (m : Str)
  | emitGraph (m : Str)
  deriving DecidableEq

/-- The stable integer code of each error kind (`hedl.h` lines 114-138). -/
def HedlErr.code : HedlErr → Int
  | .nullPtr => -1
  | .invalidUtf8 => -2
  | .parse _ => -3
  | .canonicalizeErr _ => -4
  | .emitJson _ => -5
  | .alloc => -6
  | .emitYaml _ => -7
  | .emitXml _ => -8
  | .emitCsv _ => -9
  | .emitParquet _ => -10
  | .lintErr _ => -11
  | .emitGraph _ => -12

/-- The human-readable message stored in the per-thread error slot. -/
def HedlErr.msg : HedlErr → Str
  | .nullPtr => strLit "null pointer argument"
  | .invalidUtf8 => strLit "invalid UTF-8 input"
  | .parse m => m
  | .canonicalizeErr m => m
  | .emitJson m => m
  | .alloc => strLit "allocation failure"
  | .emitYaml m => m
  | .emitXml m => m
  | .emitCsv m => m
  | .emitParquet m => m
  | .lintErr m => m
  | .emitGraph m => m

/-- The status code of an operation result: `HEDL_OK` (0) on success, the
error code otherwise. -/
def codeOf {α : Type} : Except HedlErr α → Int
  | .ok _ => 0
  | .error e => e.code

/-- A cross-boundary handle: NULL, the released ("poisoned") sentinel, or
a live value (§9 design notes, `hedl.h` double-free protection). -/
inductive Handle (α : Type) where
  | null
  | poisoned
  | live (val : α)

/-- Lint diagnostics handle payload. -/
abbrev Diags := List Diagnostic

/-- `hedl_parse`: NULL input is `HEDL_ERR_NULL_PTR`; engine failures
surface as `HEDL_ERR_PARSE` with the engine message. -/
def hedl_parse (input : Option Str) (strict : Bool) : Except HedlErr Doc :=
  match input with
  | none => .error .nullPtr
  | some s =>
    match parseDoc s strict with
    | .ok d => .ok d
    | .error m => .error (.parse m)

/-- `hedl_validate`: parse and discard the document. -/
def hedl_validate (input : Option Str) (strict : Bool) : Except HedlErr Unit :=
  (hedl_parse input strict).map (fun _ => ())

/-- `hedl_get_version`: returns the two out-parameters on success, writes
nothing and returns `HEDL_ERR_NULL_PTR` on a NULL or poisoned handle. -/
def hedl_get_version : Handle Doc → Except HedlErr (Int × Int)
  | .live d => .ok (d.major, d.minor)
  | _ => .error .nullPtr

/-- `hedl_schema_count`: count, or -1 if the handle is NULL or poisoned. -/
def hedl_schema_count : Handle Doc → Int
  | .live d => d.schemas.length
  | _ => -1

/-- `hedl_alias_count`: count, or -1 if the handle is NULL or poisoned. -/
def hedl_alias_count : Handle Doc → Int
  | .live d => d.aliases.length
  | _ => -1

/-- `hedl_root_item_count`: count, or -1 if the handle is NULL or
poisoned. -/
def hedl_root_item_count : Handle Doc → Int
  | .live d => d.rootItems.length
  | _ => -1

/-- `hedl_canonicalize`. -/
def hedl_canonicalize : Handle Doc → Except HedlErr Str
  | .live d => .ok (canonicalize d)
  | _ => .error .nullPtr

/-- `hedl_lint`. -/
def hedl_lint : Handle Doc → Except HedlErr Diags
  | .live d => .ok (lintDoc d)
  | _ => .error .nullPtr

/-- `hedl_diagnostics_count`: count, or -1 if the handle is NULL or
poisoned. -/
def hedl_diagnostics_count : Handle Diags → Int
  | .live ds => ds.length
  | _ => -1

/-- `hedl_diagnostics_severity`: 0/1/2, or -1 on a NULL or poisoned
handle or an out-of-range index. -/
def hedl_diagnostics_severity (h : Handle Diags) (i : Int) : Int :=
  match h with
  | .live ds =>
    if i < 0 then -1
    else
      match ds.get? i.toNat with
      | some g => (g.severity : Int)
      | none => -1
  | _ => -1

/-- `hedl_diagnostics_get`: the message of one diagnostic. -/
def hedl_diagnostics_get (h : Handle Diags) (i : Int) : Except HedlErr Str :=
  match h with
  | .live ds =>
    if i < 0 then .error .nullPtr
    else
      match ds.get? i.toNat with
      | some g => .ok g.message
      | none => .error .nullPtr
  | _ => .error .nullPtr

/-! ## Emit renderers (external collaborators, §4.8/§6) -/

/-- Concatenation of emitted chunks. -/
def strConcat : List Str → Str
  | [] => []
  | s :: ss => s ++ strConcat ss

/-- Lines rendered with one `\n` after each line. -/
def linesToStr : List Str → Str
  | [] => []
  | l :: ls => l ++ '\n' :: linesToStr ls

theorem strConcat_map_nl (ls : List Str) :
    strConcat (ls.map (fun l => l ++ ['\n'])) = linesToStr ls := by
  induction ls with
  | nil => rfl
  | cons l ls ih => simp [strConcat, linesToStr, ih]

theorem strConcat_chunks_join (ls : List Str) (h : ls ≠ []) :
    strConcat (ls.map (fun l => l ++ ['\n'])) = joinSep '\n' ls ++ ['\n'] := by
  induction ls with
  | nil => exact absurd rfl h
  | cons l ls ih =>
    cases ls with
    | nil => simp [strConcat, joinSep]
    | cons m ms =>
      simp only [List.map_cons, strConcat] at ih ⊢
      rw [ih (by simp)]
      simp [joinSep, List.append_assoc]

/-- Modelled from the spec (renderers are thin adapters over the
traversal API): JSON scalar rendering. -/
def renderJsonValue : Value → Str
  | .null => strLit "null"
  | .bool true => strLit "true"
  | .bool false => strLit "false"
  | .int n => intToChars n
  | .str s => '"' :: (escapeChars s ++ ['"'])
  | .ref p => '"' :: ('@' :: (joinSep '.' p ++ ['"']))

def renderJsonPair (it : RootItem) : Str :=
  '"' :: (escapeChars it.key ++ ('"' :: (strLit ": " ++ renderJsonValue it.value)))

def jsonMetaEntry (d : Doc) : Str :=
  strLit "\"__version__\": \"" ++
    (natToChars d.major ++ ('.' :: (natToChars d.minor ++ ['"'])))

def jsonEntries (d : Doc) (meta : Bool) : List Str :=
  (if meta then [jsonMetaEntry d] else []) ++ d.rootItems.map renderJsonPair

/-- The JSON text: one object of the root items. -/
def renderJsonDoc (d : Doc) (meta : Bool) : Str :=
  '\x7b' :: (joinCommaSpace (jsonEntries d meta) ++ ['\x7d'])

/-- Streamed chunk sequence for JSON: opening brace, entries with
separators between them, closing brace. -/
def chunksSep : List Str → List Str
  | [] => []
  | [p] => [p]
  | p :: ps => p :: strLit ", " :: chunksSep ps

theorem strConcat_chunksSep (ps : List Str) :
    strConcat (chunksSep ps) = joinCommaSpace ps := by
  induction ps with
  | nil => rfl
  | cons p ps ih =>
    cases ps with
    | nil => simp [chunksSep, joinCommaSpace, strConcat]
    | cons q qs =>
      simp only [chunksSep, strConcat, joinCommaSpace] at ih ⊢
      rw [ih]
      simp [List.append_assoc]
      rfl

def jsonChunks (d : Doc) (meta : Bool) : List Str :=
  [['\x7b']] ++ chunksSep (jsonEntries d meta) ++ [['\x7d']]

/-- `hedl_to_json`. -/
def hedl_to_json (h : Handle Doc) (meta : Bool) : Except HedlErr Str :=
  match h with
  | .live d => .ok (renderJsonDoc d meta)
  | _ => .error .nullPtr

/-- `hedl_to_json_callback`: status code and the chunk sequence delivered
to the callback, in delivery order. -/
def hedl_to_json_callback (h : Handle Doc) (meta : Bool) : Int × List Str :=
  match h with
  | .live d => (0, jsonChunks d meta)
  | _ => (-1, [])


/-- Modelled from the spec: YAML rendering — one `key: value` line per
root item, optionally preceded by a version metadata line. -/
def yamlLines (d : Doc) (meta : Bool) : List Str :=
  (if meta then [strLit "__hedl_version__: " ++
    (natToChars d.major ++ '.' :: natToChars d.minor)] else []) ++
    d.rootItems.map renderItemLine

def renderYamlDoc (d : Doc) (meta : Bool) : Str := linesToStr (yamlLines d meta)

def yamlChunks (d : Doc) (meta : Bool) : List Str :=
  (yamlLines d meta).map (fun l => l ++ ['\n'])

/-- `hedl_to_yaml`. -/
def hedl_to_yaml (h : Handle Doc) (meta : Bool) : Except HedlErr Str :=
  match h with
  | .live d => .ok (renderYamlDoc d meta)
  | _ => .error .nullPtr

/-- `hedl_to_yaml_callback`. -/
def hedl_to_yaml_callback (h : Handle Doc) (meta : Bool) : Int × List Str :=
  match h with
  | .live d => (0, yamlChunks d meta)
  | _ => (-1, [])

/-- XML text escaping of `& < >`. -/
def xmlEscChar (c : Char) : Str :=
  if c = '&' then strLit "&amp;"
  else if c = '<' then strLit "&lt;"
  else if c = '>' then strLit "&gt;"
  else [c]

def xmlEscape : Str → Str
  | [] => []
  | c :: cs => xmlEscChar c ++ xmlEscape cs

/-- Modelled from the spec: XML rendering — one element per root item
inside a `document` element. -/
def xmlItemLine (it : RootItem) : Str :=
  strLit "  <" ++ (it.key ++ ('>' ::
    (xmlEscape (renderValue it.value) ++ (strLit "</" ++ (it.key ++ strLit ">")))))

def xmlLines (d : Doc) : List Str :=
  strLit "<document>" :: (d.rootItems.map xmlItemLine ++ [strLit "</document>"])

def renderXmlDoc (d : Doc) : Str := linesToStr (xmlLines d)

def xmlChunks (d : Doc) : List Str := (xmlLines d).map (fun l => l ++ ['\n'])

/-- `hedl_to_xml`. -/
def hedl_to_xml : Handle Doc → Except HedlErr Str
  | .live d => .ok (renderXmlDoc d)
  | _ => .error .nullPtr

/-- `hedl_to_xml_callback`. -/
def hedl_to_xml_callback : Handle Doc → Int × List Str
  | .live d => (0, xmlChunks d)
  | _ => (-1, [])

/-- Whether a value is a matrix list (a list of records of one schema,
§3).  The modelled scalar fragment has no list values, so no value is a
matrix list. -/
def valueIsMatrixList : Value → Bool
  | .null => false
  | .bool _ => false
  | .int _ => false
  | .str _ => false
  | .ref _ => false

/-- `hedl_to_csv`: the CSV renderer refuses documents without a matrix
list with `EmitCsv` (§7); in the modelled fragment every document is
refused. -/
def hedl_to_csv : Handle Doc → Except HedlErr Str
  | .live d =>
    if d.rootItems.any (fun it => valueIsMatrixList it.value) then
      .ok []
    else .error (.emitCsv (strLit "document contains no matrix list"))
  | _ => .error .nullPtr

/-- `hedl_to_csv_callback`: same status as `hedl_to_csv`; chunks are
delivered only on success. -/
def hedl_to_csv_callback : Handle Doc → Int × List Str
  | .live d =>
    if d.rootItems.any (fun it => valueIsMatrixList it.value) then (0, [[]])
    else (-9, [])
  | _ => (-1, [])

/-- `hedl_to_parquet`: matrix-only, like CSV; byte output modelled as a
list of bytes. -/
def hedl_to_parquet : Handle Doc → Except HedlErr (List Nat)
  | .live d =>
    if d.rootItems.any (fun it => valueIsMatrixList it.value) then
      .ok []
    else .error (.emitParquet (strLit "document contains no matrix list"))
  | _ => .error .nullPtr

/-- Modelled from the spec: Cypher rendering — one CREATE/MERGE statement
per root item. -/
def cypherLine (merge : Bool) (it : RootItem) : Str :=
  (if merge then strLit "MERGE " else strLit "CREATE ") ++
    (strLit "(n:Item \x7bkey: \"" ++
      (escapeChars it.key ++ (strLit "\", value: " ++
        (renderJsonValue it.value ++ strLit "\x7d);"))))

def cypherLines (d : Doc) (merge : Bool) : List Str :=
  d.rootItems.map (cypherLine merge)

def renderCypherDoc (d : Doc) (merge : Bool) : Str :=
  linesToStr (cypherLines d merge)

def cypherChunks (d : Doc) (merge : Bool) : List Str :=
  (cypherLines d merge).map (fun l => l ++ ['\n'])

/-- `hedl_to_neo4j_cypher`. -/
def hedl_to_neo4j_cypher (h : Handle Doc) (merge : Bool) : Except HedlErr Str :=
  match h with
  | .live d => .ok (renderCypherDoc d merge)
  | _ => .error .nullPtr

/-- `hedl_to_neo4j_cypher_callback`. -/
def hedl_to_neo4j_cypher_callback (h : Handle Doc) (merge : Bool) : Int × List Str :=
  match h with
  | .live d => (0, cypherChunks d merge)
  | _ => (-1, [])

/-- Canonical text as chunk sequence (one chunk per canonical line). -/
def canonChunks (d : Doc) : List Str :=
  (canonLines d).map (fun l => l ++ ['\n'])

/-- `hedl_canonicalize_callback`. -/
def hedl_canonicalize_callback : Handle Doc → Int × List Str
  | .live d => (0, canonChunks d)
  | _ => (-1, [])

/-! ## Operations and the per-thread error slot (§5, hedl.h) -/

/-- The status-returning FFI operations. -/
inductive FfiOp where
  | parseOp (input : Option Str) (strict : Bool)
  | validateOp (input : Option Str) (strict : Bool)
  | canonicalizeOp (h : Handle Doc)
  | toJsonOp (h : Handle Doc) (meta : Bool)
  | toYamlOp (h : Handle Doc) (meta : Bool)
  | toXmlOp (h : Handle Doc)
  | toCsvOp (h : Handle Doc)
  | toParquetOp (h : Handle Doc)
  | toCypherOp (h : Handle Doc) (merge : Bool)
  | lintOp (h : Handle Doc)
  | getVersionOp (h : Handle Doc)
  | diagsGetOp (h : Handle Diags) (i : Int)
  | clearErrorOp

/-- The status of one operation, with the payload discarded. -/
def opStatus : FfiOp → Except HedlErr Unit
  | .parseOp input strict => (hedl_parse input strict).map (fun _ => ())
  | .validateOp input strict => hedl_validate input strict
  | .canonicalizeOp h => (hedl_canonicalize h).map (fun _ => ())
  | .toJsonOp h meta => (hedl_to_json h meta).map (fun _ => ())
  | .toYamlOp h meta => (hedl_to_yaml h meta).map (fun _ => ())
  | .toXmlOp h => (hedl_to_xml h).map (fun _ => ())
  | .toCsvOp h => (hedl_to_csv h).map (fun _ => ())
  | .toParquetOp h => (hedl_to_parquet h).map (fun _ => ())
  | .toCypherOp h merge => (hedl_to_neo4j_cypher h merge).map (fun _ => ())
  | .lintOp h => (hedl_lint h).map (fun _ => ())
  | .getVersionOp h => (hedl_get_version h).map (fun _ => ())
  | .diagsGetOp h i => (hedl_diagnostics_get h i).map (fun _ => ())
  | .clearErrorOp => .ok ()

/-- The per-thread error slot (§5: a per-thread single-slot mailbox). -/
def ErrSlot := Option Str

/-- `hedl_get_last_error`: the current thread slot content (NULL when
empty). -/
def hedl_get_last_error (s : ErrSlot) : Option Str := s

/-- `hedl_clear_error_threadsafe`: reset the slot to empty. -/
def hedl_clear_error_threadsafe (_ : ErrSlot) : ErrSlot := none

/-- Modelled from the spec (§5 error state): the slot after an engine
operation — successful operations clear the calling thread slot, failing
operations overwrite it with the failure message. -/
def slotAfter (op : FfiOp) (_ : ErrSlot) : ErrSlot :=
  match opStatus op with
  | .ok _ => none
  | .error e => some e.msg


/-! ## Decidable equality for operation results -/

instance {e a : Type} [DecidableEq e] [DecidableEq a] : DecidableEq (Except e a) :=
  fun x y =>
    match x, y with
    | .ok u, .ok v =>
      if h : u = v then isTrue (by rw [h]) else isFalse (by intro hc; cases hc; exact h rfl)
    | .error u, .error v =>
      if h : u = v then isTrue (by rw [h]) else isFalse (by intro hc; cases hc; exact h rfl)
    | .ok _, .error _ => isFalse (by intro hc; cases hc)
    | .error _, .ok _ => isFalse (by intro hc; cases hc)

/-! ## The concrete scenario inputs (§8) -/

/-- Scenario S1 input (also `bindings/c/examples/basic.c`). -/
def srcS1 : Str := strLit "%VERSION: 1.0\n---\nname: Alice\nage: 30\n"

/-- Scenario S2 input (also `crates/hedl-ffi/examples/example.c`). -/
def srcS2 : Str := strLit "%VERSION: 1.0\n%ALIAS: prod = production\n---\nenvironment: @prod\n"

/-- Scenario S3 input (schemas declared out of order). -/
def srcS3 : Str :=
  strLit "%VERSION: 1.0\n%SCHEMA: B \x7b x: int \x7d\n%SCHEMA: A \x7b y: int \x7d\n---\nk: 1\n"

/-- Scenario S4 input (unresolved reference). -/
def srcS4 : Str := strLit "%VERSION: 1.0\n---\nref: @missing\n"

/-- Scenario S5 input (alias cycle). -/
def srcS5 : Str := strLit "%VERSION: 1.0\n%ALIAS: a = @b\n%ALIAS: b = @a\n---\nx: @a\n"

/-- The empty default document. -/
def defaultDoc : Doc := ⟨1, 0, [], [], [], []⟩

instance : Inhabited Doc := ⟨defaultDoc⟩

/-- The document parsed from S1. -/
def docS1 : Doc := (parseDoc srcS1 true).toOption.getD defaultDoc

/-- The document parsed from S2. -/
def docS2 : Doc := (parseDoc srcS2 true).toOption.getD defaultDoc

/-- The document parsed from S3. -/
def docS3 : Doc := (parseDoc srcS3 true).toOption.getD defaultDoc

/-- The document parsed from S4 in lenient mode. -/
def docS4 : Doc := (parseDoc srcS4 false).toOption.getD defaultDoc

/-- The raw (pre-resolution) document of S5. -/
def rawS5 : Doc := (parseRaw srcS5).toOption.getD defaultDoc


set_option maxRecDepth 10000

/-- The thirteen stable status codes of the error taxonomy. -/
def allCodes : List Int := [0, -1, -2, -3, -4, -5, -6, -7, -8, -9, -10, -11, -12]

/-- C2: the error codes surfaced to callers are exactly OK=0,
NullArgument=-1, InvalidUtf8=-2, Parse=-3, Canonicalize=-4, EmitJson=-5,
Allocation=-6, EmitYaml=-7, EmitXml=-8, EmitCsv=-9, EmitParquet=-10,
Lint=-11 and EmitGraph=-12; every status-returning operation returns 0 on
success and the matching negative code of its failure kind. -/
theorem c2_error_codes :
    (HedlErr.nullPtr.code = -1 ∧ HedlErr.invalidUtf8.code = -2 ∧
      (∀ m, (HedlErr.parse m).code = -3) ∧
      (∀ m, (HedlErr.canonicalizeErr m).code = -4) ∧
      (∀ m, (HedlErr.emitJson m).code = -5) ∧ HedlErr.alloc.code = -6 ∧
      (∀ m, (HedlErr.emitYaml m).code = -7) ∧
      (∀ m, (HedlErr.emitXml m).code = -8) ∧
      (∀ m, (HedlErr.emitCsv m).code = -9) ∧
      (∀ m, (HedlErr.emitParquet m).code = -10) ∧
      (∀ m, (HedlErr.lintErr m).code = -11) ∧
      (∀ m, (HedlErr.emitGraph m).code = -12)) ∧
    (∀ e : HedlErr, e.code ∈ allCodes) ∧
    (∀ op : FfiOp, codeOf (opStatus op) ∈ allCodes) := by
  refine ⟨⟨rfl, rfl, fun _ => rfl, fun _ => rfl, fun _ => rfl, rfl, fun _ => rfl,
    fun _ => rfl, fun _ => rfl, fun _ => rfl, fun _ => rfl, fun _ => rfl⟩, ?_, ?_⟩
  · intro e
    cases e <;> simp [HedlErr.code, allCodes]
  · intro op
    match hs : opStatus op with
    | .ok _ => simp [codeOf, allCodes]
    | .error e =>
      simp only [codeOf]
      cases e <;> simp [HedlErr.code, allCodes]

/-- C6: parsing scenario S1 (`%VERSION: 1.0`, body `name: Alice` /
`age: 30`) succeeds with version (1, 0), zero schemas, zero aliases, two
root items and an empty diagnostic buffer. -/
theorem c6_scenario_s1 :
    ∃ d, hedl_parse (some srcS1) true = .ok d ∧
      hedl_get_version (.live d) = .ok (1, 0) ∧
      hedl_schema_count (.live d) = 0 ∧
      hedl_alias_count (.live d) = 0 ∧
      hedl_root_item_count (.live d) = 2 ∧
      d.diags = [] := by
  exact ⟨docS1, by decide, by decide, by decide, by decide, by decide, by decide⟩

/-- C8: every operation that takes a document or diagnostics handle, on a
NULL or released (poisoned) handle, returns NullArgument -- -1 from the
integer count accessors, `HEDL_ERR_NULL_PTR` from the others (callback
emitters return the -1 status and deliver no chunks) -- and produces no
outputs; `hedl_parse` on NULL input likewise. -/
theorem c8_null_poisoned :
    hedl_schema_count .null = -1 ∧ hedl_schema_count .poisoned = -1 ∧
    hedl_alias_count .null = -1 ∧ hedl_alias_count .poisoned = -1 ∧
    hedl_root_item_count .null = -1 ∧ hedl_root_item_count .poisoned = -1 ∧
    hedl_diagnostics_count .null = -1 ∧ hedl_diagnostics_count .poisoned = -1 ∧
    (∀ i, hedl_diagnostics_severity .null i = -1 ∧
      hedl_diagnostics_severity .poisoned i = -1) ∧
    hedl_get_version .null = .error .nullPtr ∧
    hedl_get_version .poisoned = .error .nullPtr ∧
    (∀ strict, hedl_parse none strict = .error .nullPtr) ∧
    hedl_canonicalize .null = .error .nullPtr ∧
    hedl_canonicalize .poisoned = .error .nullPtr ∧
    hedl_lint .null = .error .nullPtr ∧
    hedl_lint .poisoned = .error .nullPtr ∧
    (∀ i, hedl_diagnostics_get .null i = .error .nullPtr ∧
      hedl_diagnostics_get .poisoned i = .error .nullPtr) ∧
    (∀ m, hedl_to_json .null m = .error .nullPtr ∧
      hedl_to_json .poisoned m = .error .nullPtr ∧
      hedl_to_json_callback .null m = (-1, []) ∧
      hedl_to_json_callback .poisoned m = (-1, [])) ∧
    (∀ m, hedl_to_yaml .null m = .error .nullPtr ∧
      hedl_to_yaml .poisoned m = .error .nullPtr ∧
      hedl_to_yaml_callback .null m = (-1, []) ∧
      hedl_to_yaml_callback .poisoned m = (-1, [])) ∧
    hedl_to_xml .null = .error .nullPtr ∧
    hedl_to_xml .poisoned = .error .nullPtr ∧
    hedl_to_xml_callback .null = (-1, []) ∧
    hedl_to_xml_callback .poisoned = (-1, []) ∧
    hedl_to_csv .null = .error .nullPtr ∧
    hedl_to_csv .poisoned = .error .nullPtr ∧
    hedl_to_csv_callback .null = (-1, []) ∧
    hedl_to_csv_callback .poisoned = (-1, []) ∧
    hedl_to_parquet .null = .error .nullPtr ∧
    hedl_to_parquet .poisoned = .error .nullPtr ∧
    (∀ m, hedl_to_neo4j_cypher .null m = .error .nullPtr ∧
      hedl_to_neo4j_cypher .poisoned m = .error .nullPtr ∧
      hedl_to_neo4j_cypher_callback .null m = (-1, []) ∧
      hedl_to_neo4j_cypher_callback .poisoned m = (-1, [])) ∧
    hedl_canonicalize_callback .null = (-1, []) ∧
    hedl_canonicalize_callback .poisoned = (-1, []) ∧
    HedlErr.nullPtr.code = -1 :=
  ⟨rfl, rfl, rfl, rfl, rfl, rfl, rfl, rfl, fun _ => ⟨rfl, rfl⟩, rfl, rfl,
    fun _ => rfl, rfl, rfl, rfl, rfl, fun _ => ⟨rfl, rfl⟩,
    fun _ => ⟨rfl, rfl, rfl, rfl⟩, fun _ => ⟨rfl, rfl, rfl, rfl⟩,
    rfl, rfl, rfl, rfl, rfl, rfl, rfl, rfl, rfl, rfl,
    fun _ => ⟨rfl, rfl, rfl, rfl⟩, rfl, rfl, rfl⟩

/-- C9: after a successful operation the thread error slot is empty
(`hedl_get_last_error` returns NULL), after a failing operation it holds
that operation message (overwriting any earlier content), and the
explicit clear resets it regardless of previous content. -/
theorem c9_error_slot :
    ∀ (op : FfiOp) (s : ErrSlot),
      (opStatus op = .ok () → hedl_get_last_error (slotAfter op s) = none) ∧
      (∀ e, opStatus op = .error e →
        hedl_get_last_error (slotAfter op s) = some e.msg) ∧
      hedl_get_last_error (hedl_clear_error_threadsafe s) = none := by
  intro op s
  refine ⟨?_, ?_, rfl⟩
  · intro h
    simp [slotAfter, h, hedl_get_last_error]
  · intro e h
    simp [slotAfter, h, hedl_get_last_error]

/-- C9 witness: a successful parse clears a stale slot; a failing parse
stores its message. -/
theorem c9_error_slot_witness :
    hedl_get_last_error
        (slotAfter (.parseOp (some srcS1) true) (some (strLit "stale"))) = none ∧
      hedl_get_last_error (slotAfter (.parseOp none true) none) =
        some HedlErr.nullPtr.msg :=
  ⟨(c9_error_slot (.parseOp (some srcS1) true) (some (strLit "stale"))).1 (by decide),
    (c9_error_slot (.parseOp none true) none).2.1 .nullPtr (by decide)⟩


/-- C4: parsing scenario S2 succeeds with one root item; the resolved
value of `environment` is the string "production"; the canonical output
keeps the line `%ALIAS: prod = production` and the alias use site
`environment: @prod` textually (not inlined). -/
theorem c4_scenario_s2 :
    ∃ d, hedl_parse (some srcS2) true = .ok d ∧
      hedl_root_item_count (.live d) = 1 ∧
      docResolvedValue d (strLit "environment") = some (.str (strLit "production")) ∧
      hedl_canonicalize (.live d) = .ok (joinSep '\n' (canonLines d) ++ ['\n']) ∧
      strLit "%ALIAS: prod = production" ∈ canonLines d ∧
      strLit "environment: @prod" ∈ canonLines d := by
  exact ⟨docS2, by decide, by decide, by decide, by decide, by decide, by decide⟩

/-- C3: strict parsing of S4 fails with the Parse code and a message
naming `@missing` and the span of the reference (line 3, column 6, bytes
23..31); lenient parsing succeeds keeping the symbolic reference with
that span, and linting surfaces one diagnostic of severity Error (2) at
that same span. -/
theorem c3_scenario_s4 :
    (hedl_parse (some srcS4) true =
      .error (.parse
        (strLit "unresolved reference @missing at line 3 column 6")) ∧
     refMsg [strLit "missing"] ⟨23, 31, 3, 6⟩ =
       strLit "unresolved reference @missing at line 3 column 6") ∧
    (∃ d, hedl_parse (some srcS4) false = .ok d ∧
      (∃ it, d.rootItems = [it] ∧ it.key = strLit "ref" ∧
        it.value = .ref [strLit "missing"] ∧ it.vspan = ⟨23, 31, 3, 6⟩) ∧
      hedl_lint (.live d) = .ok
        [⟨2, strLit "E0001",
          strLit "unresolved reference @missing at line 3 column 6",
          ⟨23, 31, 3, 6⟩⟩] ∧
      hedl_diagnostics_severity (.live (lintDoc d)) 0 = 2) := by
  refine ⟨⟨by decide, by decide⟩, ⟨docS4, by decide, ?_, by decide, by decide⟩⟩
  exact ⟨⟨strLit "ref", .ref [strLit "missing"], ⟨23, 31, 3, 6⟩⟩,
    by decide, by decide, by decide, by decide⟩

/-- C5: whenever the alias definitions of an input form a reference
cycle, parsing is a hard failure with the Parse error and a
cycle-naming message, and no document is produced; in particular the S5
input (`%ALIAS: a = @b` / `%ALIAS: b = @a`) fails in both modes with a
message naming both `a` and `b`. -/
theorem c5_alias_cycle :
    (∀ (s : Str) (strict : Bool) (d0 : Doc) (cyc : List Str),
      parseRaw s = .ok d0 → checkDecls d0 = .ok () →
      findCycle d0.aliases = some cyc →
        hedl_parse (some s) strict =
          .error (.parse (strLit "alias cycle detected: " ++ joinArrow cyc))) ∧
    (findCycle rawS5.aliases =
      some [strLit "a", strLit "b", strLit "a"] ∧
     ∀ strict, hedl_parse (some srcS5) strict =
       .error (.parse (strLit "alias cycle detected: a -> b -> a"))) := by
  constructor
  · intro s strict d0 cyc h0 h1 h2
    simp only [hedl_parse, parseDoc, h0, h1, checkAliases, h2]
  · refine ⟨by decide, ?_⟩
    intro strict
    cases strict
    · decide
    · decide

/-- C5 witness: the universal cycle theorem applied to the S5 input. -/
theorem c5_alias_cycle_witness :
    hedl_parse (some srcS5) false =
      .error (.parse (strLit "alias cycle detected: " ++
        joinArrow [strLit "a", strLit "b", strLit "a"])) :=
  c5_alias_cycle.1 srcS5 false rawS5 [strLit "a", strLit "b", strLit "a"]
    (by decide) (by decide) (by decide)


theorem strConcat_append (a b : List Str) :
    strConcat (a ++ b) = strConcat a ++ strConcat b := by
  induction a with
  | nil => rfl
  | cons x xs ih => simp [strConcat, ih, List.append_assoc]

theorem strConcat_canonChunks (d : Doc) :
    strConcat (canonChunks d) = canonicalize d := by
  rw [canonChunks, strConcat_chunks_join (canonLines d) (by simp [canonLines])]
  rfl

theorem strConcat_jsonChunks (d : Doc) (meta : Bool) :
    strConcat (jsonChunks d meta) = renderJsonDoc d meta := by
  simp only [jsonChunks, strConcat_append, strConcat_chunksSep, renderJsonDoc]
  simp [strConcat]

theorem noMatrixList (d : Doc) :
    d.rootItems.any (fun it => valueIsMatrixList it.value) = false := by
  rw [List.any_eq_false]
  intro it _
  cases it.value <;> simp [valueIsMatrixList]

/-- C10: each streaming emit operation returns the same status code as
its allocating counterpart, and on success the in-order concatenation of
the delivered chunks equals the allocating variant output. -/
theorem c10_callback_equiv :
    ∀ (h : Handle Doc) (meta merge : Bool),
      ((hedl_canonicalize_callback h).1 = codeOf (hedl_canonicalize h) ∧
        ∀ s, hedl_canonicalize h = .ok s →
          strConcat (hedl_canonicalize_callback h).2 = s) ∧
      ((hedl_to_json_callback h meta).1 = codeOf (hedl_to_json h meta) ∧
        ∀ s, hedl_to_json h meta = .ok s →
          strConcat (hedl_to_json_callback h meta).2 = s) ∧
      ((hedl_to_yaml_callback h meta).1 = codeOf (hedl_to_yaml h meta) ∧
        ∀ s, hedl_to_yaml h meta = .ok s →
          strConcat (hedl_to_yaml_callback h meta).2 = s) ∧
      ((hedl_to_xml_callback h).1 = codeOf (hedl_to_xml h) ∧
        ∀ s, hedl_to_xml h = .ok s →
          strConcat (hedl_to_xml_callback h).2 = s) ∧
      ((hedl_to_csv_callback h).1 = codeOf (hedl_to_csv h) ∧
        ∀ s, hedl_to_csv h = .ok s →
          strConcat (hedl_to_csv_callback h).2 = s) ∧
      ((hedl_to_neo4j_cypher_callback h merge).1 =
          codeOf (hedl_to_neo4j_cypher h merge) ∧
        ∀ s, hedl_to_neo4j_cypher h merge = .ok s →
          strConcat (hedl_to_neo4j_cypher_callback h merge).2 = s) := by
  intro h meta merge
  match h with
  | .null =>
    refine ⟨⟨rfl, ?_⟩, ⟨rfl, ?_⟩, ⟨rfl, ?_⟩, ⟨rfl, ?_⟩, ⟨rfl, ?_⟩, ⟨rfl, ?_⟩⟩ <;>
      (intro s hc; exact Except.noConfusion hc)
  | .poisoned =>
    refine ⟨⟨rfl, ?_⟩, ⟨rfl, ?_⟩, ⟨rfl, ?_⟩, ⟨rfl, ?_⟩, ⟨rfl, ?_⟩, ⟨rfl, ?_⟩⟩ <;>
      (intro s hc; exact Except.noConfusion hc)
  | .live d =>
    have hcsv : hedl_to_csv (.live d) =
        .error (.emitCsv (strLit "document contains no matrix list")) := by
      simp [hedl_to_csv, noMatrixList d]
    have hcsvcb : hedl_to_csv_callback (.live d) = (-9, []) := by
      simp [hedl_to_csv_callback, noMatrixList d]
    refine ⟨⟨rfl, ?_⟩, ⟨rfl, ?_⟩, ⟨rfl, ?_⟩, ⟨rfl, ?_⟩, ⟨?_, ?_⟩, ⟨rfl, ?_⟩⟩
    · intro s hc
      cases hc
      exact strConcat_canonChunks d
    · intro s hc
      cases hc
      exact strConcat_jsonChunks d meta
    · intro s hc
      cases hc
      exact strConcat_map_nl (yamlLines d meta)
    · intro s hc
      cases hc
      exact strConcat_map_nl (xmlLines d)
    · rw [hcsv, hcsvcb]
      rfl
    · intro s hc
      rw [hcsv] at hc
      exact Except.noConfusion hc
    · intro s hc
      cases hc
      exact strConcat_map_nl (cypherLines d merge)

/-- C10 witness: concrete agreement on the S1 document — canonical chunk
concatenation equals the allocating canonical output, and the CSV pair
agrees on the failure status. -/
theorem c10_callback_equiv_witness :
    strConcat (hedl_canonicalize_callback (.live docS1)).2 = canonicalize docS1 ∧
      (hedl_to_csv_callback (.live docS1)).1 = codeOf (hedl_to_csv (.live docS1)) :=
  ⟨(c10_callback_equiv (.live docS1) false false).1.2 (canonicalize docS1) rfl,
    (c10_callback_equiv (.live docS1) false false).2.2.2.2.1.1⟩


theorem schemaLe_total (a b : Schema) : schemaLe a b = true ∨ schemaLe b a = true :=
  lexLe_total a.name b.name

theorem schemaLe_trans {a b c : Schema} (h1 : schemaLe a b = true)
    (h2 : schemaLe b c = true) : schemaLe a c = true :=
  lexLe_trans h1 h2

theorem aliasLe_total (a b : AliasDef) : aliasLe a b = true ∨ aliasLe b a = true :=
  lexLe_total a.name b.name

theorem aliasLe_trans {a b c : AliasDef} (h1 : aliasLe a b = true)
    (h2 : aliasLe b c = true) : aliasLe a c = true :=
  lexLe_trans h1 h2

/-- C7: the canonical line sequence is the `%VERSION` line, then the
`%SCHEMA` definitions sorted in lexicographic name order (a permutation
of the document schemas), then the `%ALIAS` definitions sorted likewise,
then the separator, then the root items in original insertion order; for
the S3 input declaring `%SCHEMA: B` before `%SCHEMA: A`, the canonical
output lists `A` before `B` while the body stays `k: 1`. -/
theorem c7_canonical_order :
    (∀ d : Doc, ∃ (ss : List Schema) (als : List AliasDef),
      canonLines d = renderVersionLine d.major d.minor ::
        (ss.map renderSchemaLine ++ (als.map renderAliasLine ++
          sepLine :: d.rootItems.map renderItemLine)) ∧
      ss.Perm d.schemas ∧ SortedLe schemaLe ss ∧
      als.Perm d.aliases ∧ SortedLe aliasLe als ∧
      canonicalize d = joinSep '\n' (canonLines d) ++ ['\n']) ∧
    (∃ d, hedl_parse (some srcS3) true = .ok d ∧
      hedl_canonicalize (.live d) = .ok (strLit
        "%VERSION: 1.0\n%SCHEMA: A \x7b y: int \x7d\n%SCHEMA: B \x7b x: int \x7d\n---\nk: 1\n")) := by
  constructor
  · intro d
    exact ⟨sortByLe schemaLe d.schemas, sortByLe aliasLe d.aliases, rfl,
      sortByLe_perm schemaLe d.schemas,
      sortByLe_sorted schemaLe_total schemaLe_trans d.schemas,
      sortByLe_perm aliasLe d.aliases,
      sortByLe_sorted aliasLe_total aliasLe_trans d.aliases, rfl⟩
  · exact ⟨docS3, by decide, by decide⟩


/-! ## C1 groundwork: every parsed document is well formed -/

/-- Well-formedness of all document components, as guaranteed by the
parser. -/
def DocWF (d : Doc) : Prop :=
  (∀ sc ∈ d.schemas, SchemaWF sc) ∧ (∀ a ∈ d.aliases, AliasWF a) ∧
    (∀ it ∈ d.rootItems, ItemWF it)

theorem parsePrologueGo_WF :
    ∀ (lines : List Str) (v : Option (Nat × Nat)) (ss : List Schema)
      (als : List AliasDef) {major minor : Nat} {ss' : List Schema}
      {als' : List AliasDef},
      parsePrologueGo v ss als lines = .ok (major, minor, ss', als') →
      (∀ sc ∈ ss, SchemaWF sc) → (∀ a ∈ als, AliasWF a) →
      (∀ sc ∈ ss', SchemaWF sc) ∧ (∀ a ∈ als', AliasWF a) := by
  intro lines
  induction lines with
  | nil =>
    intro v ss als major minor ss' als' h hss hals
    match v with
    | some (M2, m2) =>
      simp only [parsePrologueGo] at h
      cases h
      exact ⟨hss, hals⟩
    | none => simp only [parsePrologueGo] at h; cases h
  | cons l rest ih =>
    intro v ss als major minor ss' als' h hss hals
    simp only [parsePrologueGo] at h
    match hd : parseDirLine l with
    | none => simp only [hd] at h; cases h
    | some (.ver M2 m2) =>
      simp only [hd] at h
      match v with
      | some _ => simp only at h; cases h
      | none => exact ih _ _ _ h hss hals
    | some (.schemaD sc) =>
      simp only [hd] at h
      refine ih _ _ _ h ?_ hals
      intro x hx
      rcases List.mem_append.mp hx with hx | hx
      · exact hss x hx
      · rcases List.mem_singleton.mp hx with rfl
        exact parseDirLine_WF hd
    | some (.aliasD a) =>
      simp only [hd] at h
      refine ih _ _ _ h hss ?_
      intro x hx
      rcases List.mem_append.mp hx with hx | hx
      · exact hals x hx
      · rcases List.mem_singleton.mp hx with rfl
        exact parseDirLine_WF hd

theorem parseBody_WF :
    ∀ (lines : List LineE) {items : List RootItem},
      parseBody lines = .ok items → ∀ it ∈ items, ItemWF it := by
  intro lines
  induction lines with
  | nil =>
    intro items h it hit
    simp only [parseBody] at h
    cases h
    cases hit
  | cons e rest ih =>
    intro items h it hit
    obtain ⟨i, off, l⟩ := e
    simp only [parseBody] at h
    match hp : parseItemLine i off l with
    | none => simp only [hp] at h; cases h
    | some it0 =>
      simp only [hp] at h
      match hb : parseBody rest with
      | .ok items2 =>
        simp only [hb] at h
        cases h
        rcases List.mem_cons.mp hit with rfl | hit
        · exact parseItemLine_WF hp
        · exact ih hb it hit
      | .error e2 => simp only [hb] at h; cases h

/-- Every document produced by the syntactic phase is well formed. -/
theorem parseRaw_WF {s : Str} {d : Doc} (h : parseRaw s = .ok d) : DocWF d := by
  simp only [parseRaw] at h
  match hsp : splitAtSepGo ((numberGo 0 0 (splitSep '\n' s)).filter keepLine) with
  | none => simp only [hsp, parseRawSplit] at h; cases h
  | some (pro, body) =>
    simp only [hsp, parseRawSplit] at h
    match hpr : parsePrologueGo none [] [] (pro.map (fun e => e.2.2)) with
    | .error e2 => simp only [hpr] at h; cases h
    | .ok (major, minor, ss, als) =>
      simp only [hpr] at h
      match hb : parseBody body with
      | .error e2 => simp only [hb] at h; cases h
      | .ok items =>
        simp only [hb] at h
        cases h
        obtain ⟨hss, hals⟩ := parsePrologueGo_WF _ _ _ _ hpr
          (by intro x hx; cases hx) (by intro x hx; cases hx)
        exact ⟨hss, hals, parseBody_WF _ hb⟩

/-- The components of a document produced by the full parse. -/
theorem parseDoc_inv {s : Str} {strict : Bool} {d : Doc}
    (h : parseDoc s strict = .ok d) :
    ∃ (d0 : Doc) (ds : List Diagnostic),
      parseRaw s = .ok d0 ∧ checkDecls d0 = .ok () ∧ checkAliases d0 = .ok () ∧
      checkRefs strict d0 = .ok ds ∧ d = { d0 with diags := ds } := by
  simp only [parseDoc] at h
  match h0 : parseRaw s with
  | .error e => simp only [h0] at h; cases h
  | .ok d0 =>
    simp only [h0] at h
    match h1 : checkDecls d0 with
    | .error e => simp only [h1] at h; cases h
    | .ok () =>
      simp only [h1] at h
      match h2 : checkAliases d0 with
      | .error e => simp only [h2] at h; cases h
      | .ok () =>
        simp only [h2] at h
        match h3 : checkRefs strict d0 with
        | .error e => simp only [h3] at h; cases h
        | .ok ds =>
          simp only [h3] at h
          cases h
          exact ⟨d0, ds, rfl, h1, h2, h3, rfl⟩


/-! ## C1 groundwork: rendered lines contain no newline -/

theorem validIdent_no_nl {s : Str} (h : validIdent s = true) : '\n' ∉ s := by
  intro hm
  exact (identChar_ne_special (validIdent_all_identChar h _ hm)).1 rfl

theorem natToChars_no_nl (n : Nat) : '\n' ∉ natToChars n := by
  intro hm
  have := isDigit_bounds (natToChars_all_digit n _ hm)
  revert this
  decide

theorem strLit_no_nl_mem {x : Char} {s : String} (hx : x ∈ strLit s)
    (hall : ∀ c ∈ strLit s, c ≠ '\n') : x ≠ '\n' := hall x hx

theorem joinCommaSpace_mem {x : Char} :
    ∀ {ps : List Str}, x ∈ joinCommaSpace ps →
      (∃ p ∈ ps, x ∈ p) ∨ x = ',' ∨ x = ' ' := by
  intro ps
  induction ps with
  | nil => intro hm; cases hm
  | cons p qs ih =>
    intro hm
    cases qs with
    | nil =>
      simp only [joinCommaSpace] at hm
      exact Or.inl ⟨p, by simp, hm⟩
    | cons q qs2 =>
      simp only [joinCommaSpace] at hm
      rcases List.mem_append.mp hm with hm | hm
      · exact Or.inl ⟨p, by simp, hm⟩
      · rcases List.mem_cons.mp hm with rfl | hm
        · exact Or.inr (Or.inl rfl)
        · rcases List.mem_cons.mp hm with rfl | hm
          · exact Or.inr (Or.inr rfl)
          · rcases ih hm with ⟨r, hr, hxr⟩ | hx
            · exact Or.inl ⟨r, by simp [hr], hxr⟩
            · exact Or.inr hx

theorem renderField_no_nl {fd : FieldDecl} (h1 : validIdent fd.name = true)
    (h2 : validIdent fd.ty = true) : '\n' ∉ renderField fd := by
  intro hm
  simp only [renderField, List.append_assoc, List.mem_append] at hm
  rcases hm with hm | hm | hm
  · exact validIdent_no_nl h1 hm
  · revert hm; decide
  · exact validIdent_no_nl h2 hm

theorem renderVersionLine_no_nl (major minor : Nat) :
    '\n' ∉ renderVersionLine major minor := by
  intro hm
  simp only [renderVersionLine, List.mem_append, List.mem_cons] at hm
  rcases hm with hm | hm | hm | hm
  · revert hm; decide
  · exact natToChars_no_nl major hm
  · exact absurd hm (by decide)
  · exact natToChars_no_nl minor hm

theorem renderSchemaLine_no_nl {sc : Schema} (h : SchemaWF sc) :
    '\n' ∉ renderSchemaLine sc := by
  intro hm
  simp only [renderSchemaLine, List.mem_append] at hm
  rcases hm with hm | hm | hm
  · revert hm; decide
  · exact validIdent_no_nl h.1 hm
  · match hf : sc.fields with
    | [] =>
      rw [hf] at hm
      simp only [renderSchemaBody] at hm
      revert hm; decide
    | fd :: rest =>
      rw [hf] at hm
      simp only [renderSchemaBody, List.mem_append] at hm
      rcases hm with hm | hm | hm
      · revert hm; decide
      · rcases joinCommaSpace_mem hm with ⟨p, hp, hxp⟩ | hx
        · obtain ⟨x, hx2, rfl⟩ := List.mem_map.mp hp
          have hWF := h.2 x (by rw [hf]; exact hx2)
          exact renderField_no_nl hWF.1 hWF.2 hxp
        · rcases hx with hx | hx <;> exact absurd hx (by decide)
      · revert hm; decide

theorem renderAliasLine_no_nl {a : AliasDef} (h : AliasWF a) :
    '\n' ∉ renderAliasLine a := by
  intro hm
  simp only [renderAliasLine, List.mem_append] at hm
  rcases hm with hm | hm | hm | hm
  · revert hm; decide
  · exact validIdent_no_nl h.1 hm
  · revert hm; decide
  · exact renderValue_no_nl h.2 hm

theorem renderItemLine_no_nl {it : RootItem} (h : ItemWF it) :
    '\n' ∉ renderItemLine it := by
  intro hm
  simp only [renderItemLine, List.mem_append] at hm
  rcases hm with hm | hm | hm
  · exact validIdent_no_nl h.1 hm
  · revert hm; decide
  · exact renderValue_no_nl h.2 hm

theorem sepLine_no_nl : '\n' ∉ sepLine := by decide

/-- All canonical lines of a well-formed document are newline-free. -/
theorem canonLines_no_nl {d : Doc} (h : DocWF d) :
    ∀ l ∈ canonLines d, '\n' ∉ l := by
  intro l hl
  simp only [canonLines, List.mem_cons, List.mem_append] at hl
  rcases hl with rfl | hl | hl | rfl | hl
  · exact renderVersionLine_no_nl d.major d.minor
  · obtain ⟨sc, hsc, rfl⟩ := List.mem_map.mp hl
    have : sc ∈ d.schemas := (sortByLe_perm schemaLe d.schemas).mem_iff.mp hsc
    exact renderSchemaLine_no_nl (h.1 sc this)
  · obtain ⟨a, ha, rfl⟩ := List.mem_map.mp hl
    have : a ∈ d.aliases := (sortByLe_perm aliasLe d.aliases).mem_iff.mp ha
    exact renderAliasLine_no_nl (h.2.1 a this)
  · exact sepLine_no_nl
  · obtain ⟨it, hit, rfl⟩ := List.mem_map.mp hl
    exact renderItemLine_no_nl (h.2.2 it hit)


/-! ## C1 groundwork: canonical line shapes and source splitting -/

/-- Content-only view of the keep predicate. -/
def goodKeep (l : Str) : Bool :=
  match l with
  | [] => false
  | c :: _ => decide (c ≠ '#')

theorem keepLine_eq (i off : Nat) (l : Str) :
    keepLine (i, off, l) = goodKeep l := rfl

theorem renderVersionLine_shape (major minor : Nat) :
    ∃ t, renderVersionLine major minor = '%' :: t := ⟨_, rfl⟩

theorem renderSchemaLine_shape (sc : Schema) :
    ∃ t, renderSchemaLine sc = '%' :: t := ⟨_, rfl⟩

theorem renderAliasLine_shape (a : AliasDef) :
    ∃ t, renderAliasLine a = '%' :: t := ⟨_, rfl⟩

theorem renderItemLine_shape {it : RootItem} (h : ItemWF it) :
    ∃ c t, renderItemLine it = c :: t ∧ isIdentStart c = true := by
  match hk : it.key with
  | [] =>
    have hv := h.1
    rw [hk] at hv
    exact absurd hv (by simp [validIdent])
  | c :: ks =>
    have hv := h.1
    rw [hk] at hv
    simp only [validIdent, Bool.and_eq_true] at hv
    refine ⟨c, ks ++ (strLit ": " ++ renderValue it.value), ?_, hv.1⟩
    simp [renderItemLine, hk]

theorem pct_ne_sepLine (t : Str) : ('%' :: t) ≠ sepLine := by
  intro hc
  have := congrArg (fun l => l.head?) hc
  simp [sepLine, strLit] at this

theorem pct_goodKeep (t : Str) : goodKeep ('%' :: t) = true := by
  simp [goodKeep]

theorem identStart_line_goodKeep {c : Char} (t : Str) (h : isIdentStart c = true) :
    goodKeep (c :: t) = true := by
  have := identChar_ne_special (c := c) (by simp [isIdentChar, h])
  simp [goodKeep, this.2.2.2.2.2.2.2.2.2.2.2]

theorem identStart_line_ne_sepLine {c : Char} (t : Str) (h : isIdentStart c = true) :
    (c :: t) ≠ sepLine := by
  intro hc
  have hd := congrArg (fun l => l.head?) hc
  simp only [sepLine, strLit, List.head?] at hd
  exact (isIdentStart_not_digit h).2.2.2 (by simpa using hd)

/-- All canonical lines pass the keep filter. -/
theorem canonLines_goodKeep {d : Doc} (h : DocWF d) :
    ∀ l ∈ canonLines d, goodKeep l = true := by
  intro l hl
  simp only [canonLines, List.mem_cons, List.mem_append] at hl
  rcases hl with rfl | hl | hl | rfl | hl
  · obtain ⟨t, ht⟩ := renderVersionLine_shape d.major d.minor
    rw [ht]; exact pct_goodKeep t
  · obtain ⟨sc, hsc, rfl⟩ := List.mem_map.mp hl
    obtain ⟨t, ht⟩ := renderSchemaLine_shape sc
    rw [ht]; exact pct_goodKeep t
  · obtain ⟨a, ha, rfl⟩ := List.mem_map.mp hl
    obtain ⟨t, ht⟩ := renderAliasLine_shape a
    rw [ht]; exact pct_goodKeep t
  · decide
  · obtain ⟨it, hit, rfl⟩ := List.mem_map.mp hl
    have hWF := h.2.2 it hit
    obtain ⟨c, t, ht, hc⟩ := renderItemLine_shape hWF
    rw [ht]; exact identStart_line_goodKeep t hc

/-- No prologue line of the canonical form is the separator. -/
theorem canonPrologue_ne_sep {d : Doc} :
    ∀ l ∈ renderVersionLine d.major d.minor ::
      ((sortByLe schemaLe d.schemas).map renderSchemaLine ++
        (sortByLe aliasLe d.aliases).map renderAliasLine), l ≠ sepLine := by
  intro l hl
  simp only [List.mem_cons, List.mem_append] at hl
  rcases hl with rfl | hl | hl
  · obtain ⟨t, ht⟩ := renderVersionLine_shape d.major d.minor
    rw [ht]; exact pct_ne_sepLine t
  · obtain ⟨sc, _, rfl⟩ := List.mem_map.mp hl
    obtain ⟨t, ht⟩ := renderSchemaLine_shape sc
    rw [ht]; exact pct_ne_sepLine t
  · obtain ⟨a, _, rfl⟩ := List.mem_map.mp hl
    obtain ⟨t, ht⟩ := renderAliasLine_shape a
    rw [ht]; exact pct_ne_sepLine t

theorem joinSep_append_nil {sep : Char} :
    ∀ {ls : List Str}, ls ≠ [] → joinSep sep ls ++ [sep] = joinSep sep (ls ++ [[]]) := by
  intro ls
  induction ls with
  | nil => intro hc; exact absurd rfl hc
  | cons p ps ih =>
    intro _
    cases ps with
    | nil => simp [joinSep]
    | cons q qs =>
      have hrec := ih (by simp)
      have hstep : joinSep sep (p :: q :: qs) ++ [sep] =
          p ++ sep :: (joinSep sep (q :: qs) ++ [sep]) := by
        simp [joinSep, List.append_assoc]
      rw [hstep, hrec]
      rfl

/-- The canonical text splits back into its lines (plus the final empty
piece created by the terminating newline). -/
theorem canonicalize_splitSep {d : Doc} (h : DocWF d) :
    splitSep '\n' (canonicalize d) = canonLines d ++ [[]] := by
  rw [canonicalize, joinSep_append_nil (by simp [canonLines])]
  refine splitSep_joinSep (by simp) ?_
  intro p hp
  rcases List.mem_append.mp hp with hp | hp
  · exact canonLines_no_nl h p hp
  · rcases List.mem_singleton.mp hp with rfl
    simp

/-- Sum of line lengths plus one newline each. -/
def lenSum : List Str → Nat
  | [] => 0
  | l :: ls => l.length + 1 + lenSum ls

theorem numberGo_append :
    ∀ (xs : List Str) (i off : Nat) (ys : List Str),
      numberGo i off (xs ++ ys) =
        numberGo i off xs ++ numberGo (i + xs.length) (off + lenSum xs) ys := by
  intro xs
  induction xs with
  | nil => intro i off ys; simp [numberGo, lenSum]
  | cons l ls ih =>
    intro i off ys
    rw [List.cons_append]
    simp only [numberGo, List.length_cons, lenSum]
    rw [ih]
    have h1 : i + 1 + ls.length = i + (ls.length + 1) := by omega
    have h2 : off + l.length + 1 + lenSum ls = off + (l.length + 1 + lenSum ls) := by
      omega
    rw [h1, h2, List.cons_append]

theorem numberGo_contents :
    ∀ (ls : List Str) (i off : Nat),
      (numberGo i off ls).map (fun e => e.2.2) = ls := by
  intro ls
  induction ls with
  | nil => intro i off; rfl
  | cons l ls ih => intro i off; simp [numberGo, ih]

theorem filter_numberGo_all :
    ∀ (ls : List Str) (i off : Nat), (∀ l ∈ ls, goodKeep l = true) →
      (numberGo i off ls).filter keepLine = numberGo i off ls := by
  intro ls
  induction ls with
  | nil => intro i off _; rfl
  | cons l ls ih =>
    intro i off hall
    simp only [numberGo, List.filter_cons]
    rw [keepLine_eq, hall l (by simp)]
    simp only [if_pos]
    rw [ih _ _ (fun x hx => hall x (by simp [hx]))]

theorem filter_numberGo_trailing :
    ∀ (ls : List Str) (i off : Nat),
      (numberGo i off (ls ++ [[]])).filter keepLine =
        (numberGo i off ls).filter keepLine := by
  intro ls i off
  rw [numberGo_append]
  simp only [List.filter_append]
  have : (numberGo (i + ls.length) (off + lenSum ls) [[]]).filter keepLine = [] := rfl
  rw [this, List.append_nil]

theorem splitAtSepGo_append :
    ∀ (pre : List LineE), (∀ e ∈ pre, e.2.2 ≠ sepLine) →
      ∀ (esep : LineE), esep.2.2 = sepLine → ∀ (post : List LineE),
        splitAtSepGo (pre ++ esep :: post) = some (pre, post) := by
  intro pre
  induction pre with
  | nil =>
    intro _ esep hsep post
    simp [splitAtSepGo, hsep]
  | cons e rest ih =>
    intro hall esep hsep post
    have he : e.2.2 ≠ sepLine := hall e (by simp)
    simp only [List.cons_append, splitAtSepGo, he, if_neg, if_false]
    rw [show (rest.append (esep :: post)) = rest ++ esep :: post from rfl,
      ih (fun x hx => hall x (by simp [hx])) esep hsep post]


/-! ## C1 groundwork: re-parsing the canonical text -/

theorem parsePrologueGo_schemas :
    ∀ (SS : List Schema), (∀ sc ∈ SS, SchemaWF sc) →
      ∀ (v : Option (Nat × Nat)) (ss : List Schema) (als : List AliasDef)
        (rest : List Str),
        parsePrologueGo v ss als (SS.map renderSchemaLine ++ rest) =
          parsePrologueGo v (ss ++ SS) als rest := by
  intro SS
  induction SS with
  | nil => intro _ v ss als rest; simp
  | cons sc SS ih =>
    intro hWF v ss als rest
    have h1 : SchemaWF sc := hWF sc (by simp)
    simp only [List.map_cons, List.cons_append, parsePrologueGo,
      parseDirLine_schema h1]
    rw [show ((SS.map renderSchemaLine).append rest) =
      SS.map renderSchemaLine ++ rest from rfl]
    rw [ih (fun x hx => hWF x (by simp [hx])) v (ss ++ [sc]) als rest]
    rw [List.append_assoc]
    rfl

theorem parsePrologueGo_aliases :
    ∀ (AA : List AliasDef), (∀ a ∈ AA, AliasWF a) →
      ∀ (v : Option (Nat × Nat)) (ss : List Schema) (als : List AliasDef)
        (rest : List Str),
        parsePrologueGo v ss als (AA.map renderAliasLine ++ rest) =
          parsePrologueGo v ss (als ++ AA) rest := by
  intro AA
  induction AA with
  | nil => intro _ v ss als rest; simp
  | cons a AA ih =>
    intro hWF v ss als rest
    have h1 : AliasWF a := hWF a (by simp)
    simp only [List.map_cons, List.cons_append, parsePrologueGo,
      parseDirLine_alias h1]
    rw [show ((AA.map renderAliasLine).append rest) =
      AA.map renderAliasLine ++ rest from rfl]
    rw [ih (fun x hx => hWF x (by simp [hx])) v ss (als ++ [a]) rest]
    rw [List.append_assoc]
    rfl

theorem parsePrologue_canonical (major minor : Nat) (SS : List Schema)
    (hSS : ∀ sc ∈ SS, SchemaWF sc) (AA : List AliasDef)
    (hAA : ∀ a ∈ AA, AliasWF a) :
    parsePrologueGo none [] []
      (renderVersionLine major minor ::
        (SS.map renderSchemaLine ++ AA.map renderAliasLine)) =
      .ok (major, minor, SS, AA) := by
  simp only [parsePrologueGo, parseDirLine_version]
  rw [show (SS.map renderSchemaLine ++ AA.map renderAliasLine : List Str) =
    SS.map renderSchemaLine ++ (AA.map renderAliasLine ++ []) from by simp]
  rw [parsePrologueGo_schemas SS hSS _ [] [] _,
    parsePrologueGo_aliases AA hAA _ ([] ++ SS) [] []]
  simp [parsePrologueGo]

/-- The key/value view of a root item (the part the canonicalizer uses). -/
def kv (it : RootItem) : Str × Value := (it.key, it.value)

theorem parseBody_render :
    ∀ (items : List RootItem), (∀ it ∈ items, ItemWF it) → ∀ (i off : Nat),
      ∃ items2,
        parseBody (numberGo i off (items.map renderItemLine)) = .ok items2 ∧
          items2.map kv = items.map kv := by
  intro items
  induction items with
  | nil => intro _ i off; exact ⟨[], rfl, rfl⟩
  | cons it rest ih =>
    intro hWF i off
    have h1 : ItemWF it := hWF it (by simp)
    obtain ⟨items2, h2, hkv⟩ :=
      ih (fun x hx => hWF x (by simp [hx])) (i + 1)
        (off + (renderItemLine it).length + 1)
    refine ⟨⟨it.key, it.value,
      ⟨off + it.key.length + 2, off + (renderItemLine it).length, i + 1,
        it.key.length + 3⟩⟩ :: items2, ?_, ?_⟩
    · simp only [List.map_cons, numberGo, parseBody,
        parseItemLine_render h1 i off, h2]
    · simp only [List.map_cons, hkv, kv]

/-- The canonical prologue lines. -/
def canonPro (d : Doc) : List Str :=
  renderVersionLine d.major d.minor ::
    ((sortByLe schemaLe d.schemas).map renderSchemaLine ++
      (sortByLe aliasLe d.aliases).map renderAliasLine)

/-- The canonical body lines. -/
def canonBody (d : Doc) : List Str := d.rootItems.map renderItemLine

theorem canonLines_decomp (d : Doc) :
    canonLines d = canonPro d ++ sepLine :: canonBody d := by
  simp [canonLines, canonPro, canonBody, List.append_assoc]

/-- Re-parsing the canonical text succeeds, giving the same version, the
sorted schema and alias tables, an empty diagnostic buffer and root items
with the same keys and values (their spans are recomputed). -/
theorem parseRaw_canonical {d : Doc} (hWF : DocWF d) :
    ∃ items2,
      parseRaw (canonicalize d) =
        .ok ⟨d.major, d.minor, sortByLe schemaLe d.schemas,
          sortByLe aliasLe d.aliases, items2, []⟩ ∧
      items2.map kv = d.rootItems.map kv := by
  have hSSWF : ∀ sc ∈ sortByLe schemaLe d.schemas, SchemaWF sc := by
    intro sc hsc
    exact hWF.1 sc ((sortByLe_perm schemaLe d.schemas).mem_iff.mp hsc)
  have hAAWF : ∀ a ∈ sortByLe aliasLe d.aliases, AliasWF a := by
    intro a ha
    exact hWF.2.1 a ((sortByLe_perm aliasLe d.aliases).mem_iff.mp ha)
  have hitemWF : ∀ it ∈ d.rootItems, ItemWF it := hWF.2.2
  have hlines := canonLines_decomp d
  obtain ⟨items2, hbody, hkv⟩ :=
    parseBody_render d.rootItems hitemWF (0 + (canonPro d).length + 1)
      (0 + lenSum (canonPro d) + sepLine.length + 1)
  refine ⟨items2, ?_, hkv⟩
  have hkeep : ∀ l ∈ canonPro d ++ sepLine :: canonBody d, goodKeep l = true := by
    rw [← hlines]
    exact canonLines_goodKeep hWF
  have hpre : ∀ e ∈ numberGo 0 0 (canonPro d), e.2.2 ≠ sepLine := by
    intro e he
    have hm : e.2.2 ∈ canonPro d := by
      have := List.mem_map_of_mem (fun e : LineE => e.2.2) he
      rwa [numberGo_contents] at this
    exact canonPrologue_ne_sep e.2.2 (by simpa [canonPro] using hm)
  have hnum : numberGo 0 0 (canonPro d ++ sepLine :: canonBody d) =
      numberGo 0 0 (canonPro d) ++
        ((0 + (canonPro d).length, 0 + lenSum (canonPro d), sepLine) ::
          numberGo (0 + (canonPro d).length + 1)
            (0 + lenSum (canonPro d) + sepLine.length + 1) (canonBody d)) := by
    rw [numberGo_append]
    rfl
  have hplg : parsePrologueGo none [] [] (canonPro d) =
      .ok (d.major, d.minor, sortByLe schemaLe d.schemas,
        sortByLe aliasLe d.aliases) :=
    parsePrologue_canonical d.major d.minor _ hSSWF _ hAAWF
  simp only [parseRaw]
  rw [canonicalize_splitSep hWF, hlines, filter_numberGo_trailing,
    filter_numberGo_all _ _ _ hkeep, hnum,
    splitAtSepGo_append _ hpre _ rfl _]
  simp only [parseRawSplit, numberGo_contents, hplg, canonBody, hbody]

/-! ## C1 groundwork: resolver checks are stable under reordering -/

theorem nodupB_iff (l : List Str) : nodupB l = true ↔ l.Nodup := by
  induction l with
  | nil => simp [nodupB]
  | cons x xs ih =>
    simp only [nodupB, Bool.and_eq_true, Bool.not_eq_true', decide_eq_false_iff_not,
      List.nodup_cons]
    rw [ih]

theorem find?_perm {α : Type} (p : α → Bool) {l l' : List α} (hp : l.Perm l')
    (hu : ∀ x ∈ l, ∀ y ∈ l, p x = true → p y = true → x = y) :
    l.find? p = l'.find? p := by
  cases hfind : l.find? p with
  | none =>
    have hnone := List.find?_eq_none.mp hfind
    cases hfind2 : l'.find? p with
    | none => rfl
    | some a =>
      have ha := List.find?_some hfind2
      have hmem := List.mem_of_find?_eq_some hfind2
      exact absurd ha (hnone a (hp.mem_iff.mpr hmem))
  | some a =>
    have ha := List.find?_some hfind
    have hmem := List.mem_of_find?_eq_some hfind
    cases hfind2 : l'.find? p with
    | none =>
      exact absurd ha (List.find?_eq_none.mp hfind2 a (hp.mem_iff.mp hmem))
    | some b =>
      have hb := List.find?_some hfind2
      have hbm := List.mem_of_find?_eq_some hfind2
      rw [hu a hmem b (hp.mem_iff.mpr hbm) ha hb]

theorem lookupAlias_perm {als als' : List AliasDef} (hp : als.Perm als')
    (hn : (als.map (fun a => a.name)).Nodup) (n : Str) :
    lookupAlias als n = lookupAlias als' n := by
  refine find?_perm _ hp ?_
  intro x hx y hy hpx hpy
  simp only [decide_eq_true_eq] at hpx hpy
  exact List.inj_on_of_nodup_map hn hx hy (by rw [hpx, hpy])

theorem lookupSchema_perm {ss ss' : List Schema} (hp : ss.Perm ss')
    (hn : (ss.map (fun sc => sc.name)).Nodup) (n : Str) :
    lookupSchema ss n = lookupSchema ss' n := by
  refine find?_perm _ hp ?_
  intro x hx y hy hpx hpy
  simp only [decide_eq_true_eq] at hpx hpy
  exact List.inj_on_of_nodup_map hn hx hy (by rw [hpx, hpy])

theorem chaseGo_congr {als als' : List AliasDef}
    (hl : ∀ n, lookupAlias als n = lookupAlias als' n) :
    ∀ (f : Nat) (vis : List Str) (n : Str),
      chaseGo als f vis n = chaseGo als' f vis n := by
  intro f
  induction f with
  | zero => intro vis n; rfl
  | succ f ih =>
    intro vis n
    by_cases hv : n ∈ vis
    · simp [chaseGo, hv]
    · simp only [chaseGo, if_neg hv, hl n]
      cases hla : lookupAlias als' n with
      | none => rfl
      | some a =>
        show (match a.value with
              | Value.ref [m] =>
                if (lookupAlias als m).isSome = true then
                  chaseGo als f (n :: vis) m
                else none
              | _ => none) =
            (match a.value with
              | Value.ref [m] =>
                if (lookupAlias als' m).isSome = true then
                  chaseGo als' f (n :: vis) m
                else none
              | _ => none)
        cases hval : a.value with
        | null => rfl
        | bool b => rfl
        | int n2 => rfl
        | str s2 => rfl
        | ref p =>
          match p with
          | [] => rfl
          | [m] =>
            simp only [hl m]
            by_cases hm : (lookupAlias als' m).isSome
            · simp [hm, ih]
            · simp [hm]
          | _ :: _ :: _ => rfl

theorem findCycleGo_none_iff (als : List AliasDef) :
    ∀ l : List AliasDef, findCycleGo als l = none ↔
      ∀ a ∈ l, chaseGo als (als.length + 1) [] a.name = none := by
  intro l
  induction l with
  | nil => simp [findCycleGo]
  | cons a rest ih =>
    simp only [findCycleGo]
    cases hc : chaseGo als (als.length + 1) [] a.name with
    | some cyc =>
      simp only
      constructor
      · intro hcon; cases hcon
      · intro hall
        exact absurd hc (by rw [hall a (by simp)]; intro hx; cases hx)
    | none =>
      simp only
      rw [ih]
      constructor
      · intro hall x hx
        rcases List.mem_cons.mp hx with rfl | hx
        · exact hc
        · exact hall x hx
      · intro hall x hx
        exact hall x (by simp [hx])


theorem map_key_of_kv {items2 items : List RootItem}
    (h : items2.map kv = items.map kv) :
    items2.map (fun it => it.key) = items.map (fun it => it.key) := by
  have := congrArg (List.map Prod.fst) h
  simpa [List.map_map, kv, Function.comp] using this

theorem map_value_of_kv {items2 items : List RootItem}
    (h : items2.map kv = items.map kv) :
    items2.map (fun it => it.value) = items.map (fun it => it.value) := by
  have := congrArg (List.map Prod.snd) h
  simpa [List.map_map, kv, Function.comp] using this

theorem checkDecls_ok_inv {d : Doc} (h : checkDecls d = .ok ()) :
    nodupB (d.schemas.map (fun sc => sc.name)) = true ∧
    nodupB (d.aliases.map (fun a => a.name)) = true ∧
    nodupB (d.rootItems.map (fun it => it.key)) = true ∧
    d.schemas.all fieldNamesNodup = true := by
  by_cases h1 : nodupB (d.schemas.map (fun sc => sc.name)) = true
  · by_cases h2 : nodupB (d.aliases.map (fun a => a.name)) = true
    · by_cases h3 : nodupB (d.rootItems.map (fun it => it.key)) = true
      · by_cases h4 : d.schemas.all fieldNamesNodup = true
        · exact ⟨h1, h2, h3, h4⟩
        · rw [checkDecls, if_pos h1, if_pos h2, if_pos h3, if_neg h4] at h
          cases h
      · rw [checkDecls, if_pos h1, if_pos h2, if_neg h3] at h
        cases h
    · rw [checkDecls, if_pos h1, if_neg h2] at h
      cases h
  · rw [checkDecls, if_neg h1] at h
    cases h

/-- The declaration pass succeeds on the canonical re-parse. -/
theorem checkDecls_sorted {d : Doc} {items2 : List RootItem}
    (h : checkDecls d = .ok ())
    (hkv : items2.map kv = d.rootItems.map kv) :
    checkDecls ⟨d.major, d.minor, sortByLe schemaLe d.schemas,
      sortByLe aliasLe d.aliases, items2, []⟩ = .ok () := by
  obtain ⟨h1, h2, h3, h4⟩ := checkDecls_ok_inv h
  have p1 : ((sortByLe schemaLe d.schemas).map (fun sc => sc.name)).Perm
      (d.schemas.map (fun sc => sc.name)) :=
    (sortByLe_perm schemaLe d.schemas).map _
  have p2 : ((sortByLe aliasLe d.aliases).map (fun a => a.name)).Perm
      (d.aliases.map (fun a => a.name)) :=
    (sortByLe_perm aliasLe d.aliases).map _
  have h1' : nodupB ((sortByLe schemaLe d.schemas).map (fun sc => sc.name)) = true := by
    rw [nodupB_iff]
    exact p1.nodup_iff.mpr ((nodupB_iff _).mp h1)
  have h2' : nodupB ((sortByLe aliasLe d.aliases).map (fun a => a.name)) = true := by
    rw [nodupB_iff]
    exact p2.nodup_iff.mpr ((nodupB_iff _).mp h2)
  have h3' : nodupB (items2.map (fun it => it.key)) = true := by
    rw [map_key_of_kv hkv]
    exact h3
  have h4' : (sortByLe schemaLe d.schemas).all fieldNamesNodup = true := by
    rw [List.all_eq_true]
    intro sc hsc
    exact List.all_eq_true.mp h4 sc
      ((sortByLe_perm schemaLe d.schemas).mem_iff.mp hsc)
  rw [checkDecls]
  simp only at h1' h2' h3' h4' ⊢
  rw [if_pos h1', if_pos h2', if_pos h3', if_pos h4']

/-- The cycle pass succeeds on the canonical re-parse. -/
theorem checkAliases_sorted {d : Doc} {items2 : List RootItem}
    (h : checkAliases d = .ok ())
    (hn : (d.aliases.map (fun a => a.name)).Nodup) :
    checkAliases ⟨d.major, d.minor, sortByLe schemaLe d.schemas,
      sortByLe aliasLe d.aliases, items2, []⟩ = .ok () := by
  have hperm : d.aliases.Perm (sortByLe aliasLe d.aliases) :=
    (sortByLe_perm aliasLe d.aliases).symm
  have hlook : ∀ n, lookupAlias d.aliases n =
      lookupAlias (sortByLe aliasLe d.aliases) n :=
    fun n => lookupAlias_perm hperm hn n
  have hnone : findCycle d.aliases = none := by
    cases hfc : findCycle d.aliases with
    | none => rfl
    | some cyc =>
      rw [checkAliases] at h
      simp only [hfc] at h
      cases h
  rw [checkAliases]
  have hlen : (sortByLe aliasLe d.aliases).length = d.aliases.length :=
    hperm.symm.length_eq
  have hsorted_none : findCycle (sortByLe aliasLe d.aliases) = none := by
    rw [findCycle, findCycleGo_none_iff]
    intro a ha
    have ha2 : a ∈ d.aliases := hperm.mem_iff.mpr ha
    have := (findCycleGo_none_iff d.aliases d.aliases).mp hnone a ha2
    rw [hlen, ← chaseGo_congr hlook]
    exact this
  simp only [hsorted_none]

theorem resolvesPath_congr {als als' : List AliasDef} {ss ss' : List Schema}
    (hla : ∀ n, lookupAlias als n = lookupAlias als' n)
    (hls : ∀ n, lookupSchema ss n = lookupSchema ss' n) :
    ∀ p, resolvesPath als ss p = resolvesPath als' ss' p := by
  intro p
  match p with
  | [] => rfl
  | [n] => simp [resolvesPath, hla n, hls n]
  | [s, f] => simp [resolvesPath, hls s]
  | _ :: _ :: _ :: _ => rfl


theorem checkAliasRefs_strict_ok {als : List AliasDef} {ss : List Schema} :
    ∀ {l : List AliasDef} {ds : List Diagnostic},
      checkAliasRefs als ss true l = .ok ds →
      ∀ a ∈ l, ∀ p, a.value = .ref p → resolvesPath als ss p = true := by
  intro l
  induction l with
  | nil => intro ds _ a ha; cases ha
  | cons a rest ih =>
    intro ds h x hx q hq
    simp only [checkAliasRefs] at h
    cases hval : a.value with
    | ref p =>
      rw [hval] at h
      simp only at h
      by_cases hres : resolvesPath als ss p = true
      · rw [if_pos hres] at h
        rcases List.mem_cons.mp hx with rfl | hx
        · rw [hval] at hq
          cases hq
          exact hres
        · exact ih h x hx q hq
      · rw [if_neg hres] at h
        simp only [if_pos] at h
        cases h
    | null =>
      rw [hval] at h
      rcases List.mem_cons.mp hx with rfl | hx
      · rw [hval] at hq; cases hq
      · exact ih h x hx q hq
    | bool b =>
      rw [hval] at h
      rcases List.mem_cons.mp hx with rfl | hx
      · rw [hval] at hq; cases hq
      · exact ih h x hx q hq
    | int n =>
      rw [hval] at h
      rcases List.mem_cons.mp hx with rfl | hx
      · rw [hval] at hq; cases hq
      · exact ih h x hx q hq
    | str s2 =>
      rw [hval] at h
      rcases List.mem_cons.mp hx with rfl | hx
      · rw [hval] at hq; cases hq
      · exact ih h x hx q hq

theorem checkItemRefs_strict_ok {als : List AliasDef} {ss : List Schema} :
    ∀ {l : List RootItem} {ds : List Diagnostic},
      checkItemRefs als ss true l = .ok ds →
      ∀ it ∈ l, ∀ p, it.value = .ref p → resolvesPath als ss p = true := by
  intro l
  induction l with
  | nil => intro ds _ it hit; cases hit
  | cons a rest ih =>
    intro ds h x hx q hq
    simp only [checkItemRefs] at h
    cases hval : a.value with
    | ref p =>
      rw [hval] at h
      simp only at h
      by_cases hres : resolvesPath als ss p = true
      · rw [if_pos hres] at h
        rcases List.mem_cons.mp hx with rfl | hx
        · rw [hval] at hq
          cases hq
          exact hres
        · exact ih h x hx q hq
      · rw [if_neg hres] at h
        simp only [if_pos] at h
        cases h
    | null =>
      rw [hval] at h
      rcases List.mem_cons.mp hx with rfl | hx
      · rw [hval] at hq; cases hq
      · exact ih h x hx q hq
    | bool b =>
      rw [hval] at h
      rcases List.mem_cons.mp hx with rfl | hx
      · rw [hval] at hq; cases hq
      · exact ih h x hx q hq
    | int n =>
      rw [hval] at h
      rcases List.mem_cons.mp hx with rfl | hx
      · rw [hval] at hq; cases hq
      · exact ih h x hx q hq
    | str s2 =>
      rw [hval] at h
      rcases List.mem_cons.mp hx with rfl | hx
      · rw [hval] at hq; cases hq
      · exact ih h x hx q hq

theorem checkAliasRefs_all_ok {als : List AliasDef} {ss : List Schema} :
    ∀ {l : List AliasDef},
      (∀ a ∈ l, ∀ p, a.value = .ref p → resolvesPath als ss p = true) →
      checkAliasRefs als ss true l = .ok [] := by
  intro l
  induction l with
  | nil => intro _; rfl
  | cons a rest ih =>
    intro h
    simp only [checkAliasRefs]
    cases hval : a.value with
    | ref p =>
      exact (if_pos (h a (by simp) p hval)).trans
        (ih (fun x hx q hq => h x (by simp [hx]) q hq))
    | null => exact ih (fun x hx q hq => h x (by simp [hx]) q hq)
    | bool b => exact ih (fun x hx q hq => h x (by simp [hx]) q hq)
    | int n => exact ih (fun x hx q hq => h x (by simp [hx]) q hq)
    | str s2 => exact ih (fun x hx q hq => h x (by simp [hx]) q hq)

theorem checkItemRefs_all_ok {als : List AliasDef} {ss : List Schema} :
    ∀ {l : List RootItem},
      (∀ it ∈ l, ∀ p, it.value = .ref p → resolvesPath als ss p = true) →
      checkItemRefs als ss true l = .ok [] := by
  intro l
  induction l with
  | nil => intro _; rfl
  | cons a rest ih =>
    intro h
    simp only [checkItemRefs]
    cases hval : a.value with
    | ref p =>
      exact (if_pos (h a (by simp) p hval)).trans
        (ih (fun x hx q hq => h x (by simp [hx]) q hq))
    | null => exact ih (fun x hx q hq => h x (by simp [hx]) q hq)
    | bool b => exact ih (fun x hx q hq => h x (by simp [hx]) q hq)
    | int n => exact ih (fun x hx q hq => h x (by simp [hx]) q hq)
    | str s2 => exact ih (fun x hx q hq => h x (by simp [hx]) q hq)

theorem checkAliasRefs_lenient (als : List AliasDef) (ss : List Schema) :
    ∀ l : List AliasDef, ∃ ds, checkAliasRefs als ss false l = .ok ds := by
  intro l
  induction l with
  | nil => exact ⟨[], rfl⟩
  | cons a rest ih =>
    obtain ⟨ds, hds⟩ := ih
    simp only [checkAliasRefs]
    cases hval : a.value with
    | ref p =>
      by_cases hres : resolvesPath als ss p = true
      · exact ⟨ds, (if_pos hres).trans hds⟩
      · refine ⟨⟨2, strLit "E0001", refMsg p zeroSpan, zeroSpan⟩ :: ds, ?_⟩
        show (if resolvesPath als ss p = true then checkAliasRefs als ss false rest
          else if false = true then Except.error (refMsg p zeroSpan)
          else match checkAliasRefs als ss false rest with
            | Except.ok ds => Except.ok
                (⟨2, strLit "E0001", refMsg p zeroSpan, zeroSpan⟩ :: ds)
            | Except.error e => Except.error e) = _
        rw [if_neg hres, if_neg (by decide), hds]
    | null => exact ⟨ds, hds⟩
    | bool b => exact ⟨ds, hds⟩
    | int n => exact ⟨ds, hds⟩
    | str s2 => exact ⟨ds, hds⟩

theorem checkItemRefs_lenient (als : List AliasDef) (ss : List Schema) :
    ∀ l : List RootItem, ∃ ds, checkItemRefs als ss false l = .ok ds := by
  intro l
  induction l with
  | nil => exact ⟨[], rfl⟩
  | cons a rest ih =>
    obtain ⟨ds, hds⟩ := ih
    simp only [checkItemRefs]
    cases hval : a.value with
    | ref p =>
      by_cases hres : resolvesPath als ss p = true
      · exact ⟨ds, (if_pos hres).trans hds⟩
      · refine ⟨⟨2, strLit "E0001", refMsg p a.vspan, a.vspan⟩ :: ds, ?_⟩
        show (if resolvesPath als ss p = true then checkItemRefs als ss false rest
          else if false = true then Except.error (refMsg p a.vspan)
          else match checkItemRefs als ss false rest with
            | Except.ok ds => Except.ok
                (⟨2, strLit "E0001", refMsg p a.vspan, a.vspan⟩ :: ds)
            | Except.error e => Except.error e) = _
        rw [if_neg hres, if_neg (by decide), hds]
    | null => exact ⟨ds, hds⟩
    | bool b => exact ⟨ds, hds⟩
    | int n => exact ⟨ds, hds⟩
    | str s2 => exact ⟨ds, hds⟩

/-- The reference pass succeeds on the canonical re-parse. -/
theorem checkRefs_sorted {d : Doc} {items2 : List RootItem} {strict : Bool}
    {ds : List Diagnostic} (h : checkRefs strict d = .ok ds)
    (hkv : items2.map kv = d.rootItems.map kv)
    (hna : (d.aliases.map (fun a => a.name)).Nodup)
    (hns : (d.schemas.map (fun sc => sc.name)).Nodup) :
    ∃ ds2, checkRefs strict ⟨d.major, d.minor, sortByLe schemaLe d.schemas,
      sortByLe aliasLe d.aliases, items2, []⟩ = .ok ds2 := by
  have hla : ∀ n, lookupAlias d.aliases n =
      lookupAlias (sortByLe aliasLe d.aliases) n :=
    fun n => lookupAlias_perm (sortByLe_perm aliasLe d.aliases).symm hna n
  have hls : ∀ n, lookupSchema d.schemas n =
      lookupSchema (sortByLe schemaLe d.schemas) n :=
    fun n => lookupSchema_perm (sortByLe_perm schemaLe d.schemas).symm hns n
  have hres := resolvesPath_congr hla hls
  cases strict with
  | false =>
    obtain ⟨ds1, h1⟩ := checkAliasRefs_lenient (sortByLe aliasLe d.aliases)
      (sortByLe schemaLe d.schemas) (sortByLe aliasLe d.aliases)
    obtain ⟨ds2, h2⟩ := checkItemRefs_lenient (sortByLe aliasLe d.aliases)
      (sortByLe schemaLe d.schemas) items2
    refine ⟨ds1 ++ ds2, ?_⟩
    simp only [checkRefs, h1, h2]
  | true =>
    have h1inv : (∀ a ∈ d.aliases, ∀ p, a.value = Value.ref p →
          resolvesPath d.aliases d.schemas p = true) ∧
        (∀ it ∈ d.rootItems, ∀ p, it.value = Value.ref p →
          resolvesPath d.aliases d.schemas p = true) := by
      simp only [checkRefs] at h
      match ha : checkAliasRefs d.aliases d.schemas true d.aliases with
      | .error e => simp only [ha] at h; cases h
      | .ok ds1 =>
        simp only [ha] at h
        match hb : checkItemRefs d.aliases d.schemas true d.rootItems with
        | .error e => simp only [hb] at h; cases h
        | .ok ds2 =>
          exact ⟨checkAliasRefs_strict_ok ha, checkItemRefs_strict_ok hb⟩
    have hall1 := h1inv.1
    have hall2 := h1inv.2
    refine ⟨[] ++ [], ?_⟩
    have hA : checkAliasRefs (sortByLe aliasLe d.aliases)
        (sortByLe schemaLe d.schemas) true (sortByLe aliasLe d.aliases) = .ok [] := by
      refine checkAliasRefs_all_ok ?_
      intro a ha p hp
      rw [← hres p]
      exact hall1 a ((sortByLe_perm aliasLe d.aliases).mem_iff.mp ha) p hp
    have hI : checkItemRefs (sortByLe aliasLe d.aliases)
        (sortByLe schemaLe d.schemas) true items2 = .ok [] := by
      refine checkItemRefs_all_ok ?_
      intro it hit p hp
      rw [← hres p]
      have hv : it.value ∈ d.rootItems.map (fun x => x.value) := by
        rw [← map_value_of_kv hkv]
        exact List.mem_map_of_mem _ hit
      obtain ⟨it0, hit0, hveq⟩ := List.mem_map.mp hv
      exact hall2 it0 hit0 p (by rw [hveq, hp])
    simp only [checkRefs, hA, hI]


/-- C1: canonicalizing a successfully parsed document and re-parsing the
canonical text (in the same mode) succeeds, and the re-parsed document
canonicalizes to the same text: canonical output is a fixed point of
parse-then-canonicalize. -/
theorem c1_canonical_fixed_point :
    ∀ (s : Str) (strict : Bool) (d : Doc),
      hedl_parse (some s) strict = .ok d →
      ∃ d2, hedl_parse (some (canonicalize d)) strict = .ok d2 ∧
        canonicalize d2 = canonicalize d := by
  intro s strict d h
  have hp : parseDoc s strict = .ok d := by
    simp only [hedl_parse] at h
    match hpd : parseDoc s strict with
    | .error m => simp only [hpd] at h; cases h
    | .ok d1 =>
      simp only [hpd, Except.ok.injEq] at h
      rw [h]
  obtain ⟨d0, ds, hraw, hdecl, hcyc, hrefs, rfl⟩ := parseDoc_inv hp
  have hWF : DocWF d0 := parseRaw_WF hraw
  obtain ⟨items2, hraw2, hkv⟩ := parseRaw_canonical hWF
  have hkv0 : items2.map kv = d0.rootItems.map kv := hkv
  have hraw2' : parseRaw (canonicalize d0) =
      .ok ⟨d0.major, d0.minor, sortByLe schemaLe d0.schemas,
        sortByLe aliasLe d0.aliases, items2, []⟩ := hraw2
  obtain ⟨hn1, hn2, hn3, hn4⟩ := checkDecls_ok_inv hdecl
  have hna : (d0.aliases.map (fun a => a.name)).Nodup := (nodupB_iff _).mp hn2
  have hns : (d0.schemas.map (fun sc => sc.name)).Nodup := (nodupB_iff _).mp hn1
  have hdecl2 : checkDecls ⟨d0.major, d0.minor, sortByLe schemaLe d0.schemas,
      sortByLe aliasLe d0.aliases, items2, []⟩ = .ok () :=
    checkDecls_sorted hdecl hkv0
  have hcyc2 : checkAliases ⟨d0.major, d0.minor, sortByLe schemaLe d0.schemas,
      sortByLe aliasLe d0.aliases, items2, []⟩ = .ok () :=
    checkAliases_sorted hcyc hna
  obtain ⟨ds2, hrefs2⟩ := checkRefs_sorted hrefs hkv0 hna hns
  refine ⟨⟨d0.major, d0.minor, sortByLe schemaLe d0.schemas,
    sortByLe aliasLe d0.aliases, items2, ds2⟩, ?_, ?_⟩
  · show hedl_parse (some (canonicalize d0)) strict = _
    simp only [hedl_parse, parseDoc, hraw2', hdecl2, hcyc2, hrefs2]
  · have e1 : ∀ l : List RootItem, l.map renderItemLine =
        (l.map kv).map (fun p => p.1 ++ (strLit ": " ++ renderValue p.2)) := by
      intro l
      rw [List.map_map]
      rfl
    have hitems : items2.map renderItemLine = d0.rootItems.map renderItemLine := by
      rw [e1 items2, e1 d0.rootItems, hkv0]
    show canonicalize _ = canonicalize d0
    simp only [canonicalize, canonLines]
    rw [sortByLe_idem schemaLe_total schemaLe_trans,
      sortByLe_idem aliasLe_total aliasLe_trans, hitems]

theorem c1_canonical_fixed_point_witness :
    hedl_parse (some srcS1) true = .ok docS1 ∧
    ∃ d2, hedl_parse (some (canonicalize docS1)) true = .ok d2 ∧
      canonicalize d2 = canonicalize docS1 :=
  ⟨by decide, c1_canonical_fixed_point srcS1 true docS1 (by decide)⟩

end Hedl
